import Mathlib

/-!
Shallow embedding (in Lean 4) of the catalog normalization / deduplication
core of the `my-music-list` repository, together with theorems settling the
frozen claims about its specification.

Sources embedded:
- `src/spotify_client.py` : `normalize_title`, `canonical_key`
- `src/ingest.py`         : `pick_canonical_df`, `_safe_int`,
                            `canonical_track_key`, `ingest_artist`
                            (release upsert, track construction, variant marking)
- `streamlit_app.py`      : `album_display_rating`, `propagate_track_state`

Python strings are modelled at the character-list level; the model covers
the ASCII behaviour of `str.lower`, the `\w`/`\s`/`\b` character classes of
the `re` module, `str.split`, `str.strip`, `sorted`, and `int(...)` parsing
(Unicode-specific refinements such as non-ASCII case mapping or underscore
digit separators are outside the model).
-/

namespace MusicList

/-! ## Python character primitives -/

/-- Model of Python `str.lower` on a single character (ASCII range). -/
def pyLowerChar (c : Char) : Char :=
  if 65 ≤ c.toNat ∧ c.toNat ≤ 90 then Char.ofNat (c.toNat + 32) else c

/-- Characters removed by `re.sub(r"[\(\)\[\]\{\}]", " ", t)` in `normalize_title`. -/
def isBracketChar (c : Char) : Bool :=
  c = '(' || c = ')' || c = '[' || c = ']' || c = '\x7b' || c = '\x7d'

/-- Model of the regex class `\s` (and of `str.strip`'s whitespace set), ASCII part. -/
def pyWsChar (c : Char) : Bool :=
  c = ' ' || c = '\t' || c = '\n' || c = '\r' || c = '\x0b' || c = '\x0c'

/-- Model of the regex class `\w` (word characters), ASCII part:
letters, digits and underscore.  The regex `\b` boundaries around each
variant word make a match possible exactly at a maximal `\w`-run. -/
def isWordChar (c : Char) : Bool :=
  (97 ≤ c.toNat && c.toNat ≤ 122) || (65 ≤ c.toNat && c.toNat ≤ 90) ||
    (48 ≤ c.toNat && c.toNat ≤ 57) || c = '_'

/-- The alternatives matchable by the `VARIANT_WORDS` regex of
`spotify_client.py` (with `remaster(ed)?` contributing both spellings).
The pattern is applied after `str.lower`, so lowercase forms suffice. -/
def variantWords : List (List Char) :=
  [ "deluxe".data, "expanded".data, "remaster".data, "remastered".data,
    "clean".data, "bonus".data, "anniversary".data, "commentary".data,
    "instrumental".data, "edit".data, "explicit".data ]

/-- Replacement of one bracket character by a space, pointwise stage of
`re.sub(r"[\(\)\[\]\{\}]", " ", t)`. -/
def debracketChar (c : Char) : Char :=
  if isBracketChar c then ' ' else c

/-- Emit a completed maximal word run: a run equal to a variant word is
replaced by the empty string (`VARIANT_WORDS.sub("", t)`), any other run
is kept. -/
def emitRun (acc : List Char) : List Char :=
  if acc ∈ variantWords then [] else acc

/-- Accumulator pass for the `VARIANT_WORDS.sub("", t)` stage: `acc` holds
the maximal word-character run currently being read. -/
def stripVWAux : List Char → List Char → List Char
  | acc, [] => emitRun acc
  | acc, c :: rest =>
    if isWordChar c then stripVWAux (acc ++ [c]) rest
    else emitRun acc ++ c :: stripVWAux [] rest

/-- Model of `VARIANT_WORDS.sub("", t)`: every maximal word-character run
equal to a variant word is deleted (the `\b` boundaries of the pattern
admit a match exactly at such runs). -/
def stripVW (l : List Char) : List Char := stripVWAux [] l

/-- Accumulator pass for `re.sub(r"\s+", " ", t)`: the flag records whether
the previous character belonged to a whitespace run already replaced. -/
def collapseWsAux : Bool → List Char → List Char
  | _, [] => []
  | inRun, c :: rest =>
    if pyWsChar c then
      (if inRun then collapseWsAux true rest else ' ' :: collapseWsAux true rest)
    else c :: collapseWsAux false rest

/-- Model of `re.sub(r"\s+", " ", t)`: each maximal whitespace run becomes
one space. -/
def collapseWs (l : List Char) : List Char := collapseWsAux false l

/-- Removal of trailing whitespace, the right half of `str.strip`. -/
def dropTrailingWs : List Char → List Char
  | [] => []
  | c :: rest =>
    let r := dropTrailingWs rest
    if r.isEmpty && pyWsChar c then [] else c :: r

/-- The full `normalize_title` pipeline on character lists: lower-case,
brackets to spaces, variant-word removal, whitespace collapse, strip. -/
def normalizeChars (l : List Char) : List Char :=
  dropTrailingWs (List.dropWhile pyWsChar
    (collapseWs (stripVW (List.map debracketChar (List.map pyLowerChar l)))))

/-- Model of `normalize_title` from `src/spotify_client.py`. -/
def normalize_title (s : String) : String :=
  String.mk (normalizeChars s.data)

example : normalize_title ("My Album (Deluxe Edition)") = "my album edition" := by decide
example : normalize_title ("  Midnight  ") = "midnight" := by decide
example : normalize_title ("Midnight (Deluxe)") = "midnight" := by decide
example : normalize_title ("") = "" := by decide
example : normalize_title ("Re-Edit [Clean]") = "re-" := by decide

/-! ## Run-structured reformulations of the two scanning stages

The accumulator passes above compute, equivalently, a recursion on maximal
`takeWhile`/`dropWhile` blocks; the block form is the convenient one for
proofs. -/

/-- Block form of the variant-word removal stage. -/
def stripVWSpec : List Char → List Char
  | [] => []
  | c :: rest =>
    if isWordChar c then
      emitRun (List.takeWhile isWordChar (c :: rest)) ++
        stripVWSpec (List.dropWhile isWordChar (c :: rest))
    else c :: stripVWSpec rest
termination_by l => l.length
decreasing_by
  · simp only [List.dropWhile_cons, *, if_pos, List.length_cons]
    have := (List.dropWhile_suffix (l := rest) isWordChar).sublist.length_le
    omega
  · simp [List.length_cons]

/-- Block form of the whitespace-collapse stage. -/
def collapseWsSpec : List Char → List Char
  | [] => []
  | c :: rest =>
    if pyWsChar c then ' ' :: collapseWsSpec (List.dropWhile pyWsChar rest)
    else c :: collapseWsSpec rest
termination_by l => l.length
decreasing_by
  · simp only [List.length_cons]
    have := (List.dropWhile_suffix (l := rest) pyWsChar).sublist.length_le
    omega
  · simp [List.length_cons]

theorem stripVWSpec_nil : stripVWSpec [] = [] := by
  rw [stripVWSpec.eq_def]

theorem stripVWSpec_cons (c : Char) (rest : List Char) :
    stripVWSpec (c :: rest) =
      if isWordChar c then
        emitRun (List.takeWhile isWordChar (c :: rest)) ++
          stripVWSpec (List.dropWhile isWordChar (c :: rest))
      else c :: stripVWSpec rest := by
  rw [stripVWSpec.eq_def]

theorem collapseWsSpec_nil : collapseWsSpec [] = [] := by
  rw [collapseWsSpec.eq_def]

theorem collapseWsSpec_cons (c : Char) (rest : List Char) :
    collapseWsSpec (c :: rest) =
      if pyWsChar c then ' ' :: collapseWsSpec (List.dropWhile pyWsChar rest)
      else c :: collapseWsSpec rest := by
  rw [collapseWsSpec.eq_def]

theorem takeWhile_all {p : Char → Bool} {l : List Char} (h : ∀ c ∈ l, p c) :
    List.takeWhile p l = l := by
  induction l with
  | nil => rfl
  | cons a t ih =>
    rw [List.takeWhile_cons, if_pos (h a (by simp))]
    rw [ih (fun c hc => h c (by simp [hc]))]

theorem dropWhile_all {p : Char → Bool} {l : List Char} (h : ∀ c ∈ l, p c) :
    List.dropWhile p l = [] := by
  induction l with
  | nil => rfl
  | cons a t ih =>
    rw [List.dropWhile_cons, if_pos (h a (by simp))]
    exact ih (fun c hc => h c (by simp [hc]))

theorem takeWhile_append_block {p : Char → Bool} {a : List Char} {c : Char}
    {r : List Char} (ha : ∀ x ∈ a, p x) (hc : ¬ p c) :
    List.takeWhile p (a ++ c :: r) = a := by
  induction a with
  | nil => simp [List.takeWhile_cons, hc]
  | cons x t ih =>
    rw [List.cons_append, List.takeWhile_cons, if_pos (ha x (by simp))]
    rw [ih (fun y hy => ha y (by simp [hy]))]

theorem dropWhile_append_block {p : Char → Bool} {a : List Char} {c : Char}
    {r : List Char} (ha : ∀ x ∈ a, p x) (hc : ¬ p c) :
    List.dropWhile p (a ++ c :: r) = c :: r := by
  induction a with
  | nil => simp [List.dropWhile_cons, hc]
  | cons x t ih =>
    rw [List.cons_append, List.dropWhile_cons, if_pos (ha x (by simp))]
    exact ih (fun y hy => ha y (by simp [hy]))

theorem stripVWAux_eq_spec (l : List Char) :
    ∀ acc : List Char, (∀ c ∈ acc, isWordChar c) →
      stripVWAux acc l = stripVWSpec (acc ++ l) := by
  induction l with
  | nil =>
    intro acc hacc
    show emitRun acc = stripVWSpec (acc ++ [])
    rw [List.append_nil]
    match acc with
    | [] =>
      rw [stripVWSpec_nil]
      simp [emitRun, variantWords]
    | a :: t =>
      rw [stripVWSpec_cons, if_pos (hacc a (by simp))]
      rw [takeWhile_all hacc, dropWhile_all hacc, stripVWSpec_nil, List.append_nil]
  | cons c rest ih =>
    intro acc hacc
    by_cases hw : isWordChar c
    · rw [stripVWAux, if_pos hw]
      have hacc' : ∀ x ∈ acc ++ [c], isWordChar x := by
        intro x hx
        rcases List.mem_append.mp hx with h | h
        · exact hacc x h
        · simp only [List.mem_singleton] at h
          simpa [h] using hw
      rw [ih (acc ++ [c]) hacc', List.append_assoc, List.singleton_append]
    · rw [stripVWAux, if_neg hw]
      rw [ih [] (by simp)]
      rw [List.nil_append]
      match acc with
      | [] =>
        simp only [List.nil_append, emitRun]
        rw [if_neg (by simp [variantWords])]
        rw [stripVWSpec_cons, if_neg hw]
        rfl
      | a :: t =>
        have hkey : (a :: t) ++ c :: rest = a :: (t ++ c :: rest) := rfl
        rw [hkey, stripVWSpec_cons, if_pos (hacc a (by simp)), ← hkey]
        rw [takeWhile_append_block hacc hw, dropWhile_append_block hacc hw]
        rw [stripVWSpec_cons, if_neg hw]

theorem stripVW_eq_spec (l : List Char) : stripVW l = stripVWSpec l := by
  simpa using stripVWAux_eq_spec l [] (by simp)

theorem collapseWsAux_eq_spec (l : List Char) :
    collapseWsAux true l = collapseWsSpec (List.dropWhile pyWsChar l) ∧
      collapseWsAux false l = collapseWsSpec l := by
  induction l with
  | nil => constructor <;> simp [collapseWsAux, collapseWsSpec_nil]
  | cons c rest ih =>
    by_cases hw : pyWsChar c
    · constructor
      · simp only [collapseWsAux, if_pos hw, if_pos rfl, List.dropWhile_cons, hw, ite_true]
        exact ih.1
      · simp only [collapseWsAux, if_pos hw]
        rw [show (if (false : Bool) then collapseWsAux true rest
              else ' ' :: collapseWsAux true rest) = ' ' :: collapseWsAux true rest from rfl]
        rw [collapseWsSpec_cons, if_pos hw, ih.1]
    · constructor
      · rw [collapseWsAux, if_neg hw, List.dropWhile_cons, if_neg hw,
          collapseWsSpec_cons, if_neg hw, ih.2]
      · rw [collapseWsAux, if_neg hw, collapseWsSpec_cons, if_neg hw, ih.2]

theorem collapseWs_eq_spec (l : List Char) : collapseWs l = collapseWsSpec l :=
  (collapseWsAux_eq_spec l).2

/-! ## Character-level facts -/

theorem char_toNat_ofNat {n : Nat} (h1 : 97 ≤ n) (h2 : n ≤ 122) :
    (Char.ofNat n).toNat = n := by
  have hv : n.isValidChar := Or.inl (by omega)
  simp [Char.ofNat, dif_pos hv, Char.ofNatAux, Char.toNat, UInt32.toNat,
    BitVec.toNat_ofNatLt]

theorem pyLowerChar_idem (c : Char) : pyLowerChar (pyLowerChar c) = pyLowerChar c := by
  unfold pyLowerChar
  split
  · next h =>
    have htn : (Char.ofNat (c.toNat + 32)).toNat = c.toNat + 32 :=
      char_toNat_ofNat (by omega) (by omega)
    rw [if_neg (by omega)]
  · rfl

theorem pyLowerChar_space : pyLowerChar ' ' = ' ' := by decide

theorem ws_not_word {c : Char} (h : pyWsChar c = true) : isWordChar c = false := by
  simp only [pyWsChar, Bool.or_eq_true, decide_eq_true_eq] at h
  rcases h with ((((h | h) | h) | h) | h) | h <;> subst h <;> decide

theorem mem_of_mem_stripVWSpec {c : Char} {l : List Char}
    (h : c ∈ stripVWSpec l) : c ∈ l := by
  induction l using stripVWSpec.induct with
  | case1 => simp [stripVWSpec_nil] at h
  | case2 d rest hw ih =>
    rw [stripVWSpec_cons, if_pos hw] at h
    rcases List.mem_append.mp h with h1 | h1
    · have : c ∈ List.takeWhile isWordChar (d :: rest) := by
        unfold emitRun at h1
        split at h1
        · simp at h1
        · exact h1
      exact (List.takeWhile_sublist _).mem this
    · exact (List.dropWhile_suffix (l := d :: rest) isWordChar).sublist.mem (ih h1)
  | case3 d rest hw ih =>
    rw [stripVWSpec_cons, if_neg hw] at h
    rcases List.mem_cons.mp h with h1 | h1
    · simp [h1]
    · exact List.mem_cons_of_mem d (ih h1)

theorem mem_of_mem_collapseWsSpec {c : Char} {l : List Char}
    (h : c ∈ collapseWsSpec l) : c ∈ l ∨ c = ' ' := by
  induction l using collapseWsSpec.induct with
  | case1 => simp [collapseWsSpec_nil] at h
  | case2 d rest hw ih =>
    rw [collapseWsSpec_cons, if_pos hw] at h
    rcases List.mem_cons.mp h with h1 | h1
    · exact Or.inr h1
    · rcases ih h1 with h2 | h2
      · exact Or.inl (List.mem_cons_of_mem d
          ((List.dropWhile_suffix pyWsChar).sublist.mem h2))
      · exact Or.inr h2
  | case3 d rest hw ih =>
    rw [collapseWsSpec_cons, if_neg hw] at h
    rcases List.mem_cons.mp h with h1 | h1
    · exact Or.inl (by simp [h1])
    · rcases ih h1 with h2 | h2
      · exact Or.inl (List.mem_cons_of_mem d h2)
      · exact Or.inr h2

theorem dropTrailingWs_prefix_self (l : List Char) : dropTrailingWs l <+: l := by
  induction l with
  | nil => exact List.prefix_refl _
  | cons c rest ih =>
    rw [dropTrailingWs]
    split
    · exact ⟨c :: rest, rfl⟩
    · exact (List.prefix_cons_inj c).mpr ih

theorem mem_of_mem_dropTrailingWs {c : Char} {l : List Char}
    (h : c ∈ dropTrailingWs l) : c ∈ l :=
  (dropTrailingWs_prefix_self l).sublist.mem h

theorem mem_of_mem_normalizeChars {c : Char} {l : List Char}
    (h : c ∈ normalizeChars l) :
    c ∈ List.map debracketChar (List.map pyLowerChar l) ∨ c = ' ' := by
  unfold normalizeChars at h
  have h1 := mem_of_mem_dropTrailingWs h
  have h2 := (List.dropWhile_suffix pyWsChar).sublist.mem h1
  rw [collapseWs_eq_spec] at h2
  rcases mem_of_mem_collapseWsSpec h2 with h3 | h3
  · rw [stripVW_eq_spec] at h3
    exact Or.inl (mem_of_mem_stripVWSpec h3)
  · exact Or.inr h3

/-! ## Whitespace shape of the collapse / strip stages -/

theorem ws_space_collapseWsSpec {c : Char} {l : List Char}
    (h : c ∈ collapseWsSpec l) (hws : pyWsChar c = true) : c = ' ' := by
  induction l using collapseWsSpec.induct with
  | case1 => simp [collapseWsSpec_nil] at h
  | case2 d rest hw ih =>
    rw [collapseWsSpec_cons, if_pos hw] at h
    rcases List.mem_cons.mp h with h1 | h1
    · exact h1
    · exact ih h1
  | case3 d rest hw ih =>
    rw [collapseWsSpec_cons, if_neg hw] at h
    rcases List.mem_cons.mp h with h1 | h1
    · rw [h1] at hws; exact absurd hws hw
    · exact ih h1

/-- No two adjacent whitespace characters. -/
def noTwoWs : List Char → Bool
  | [] => true
  | [_] => true
  | a :: b :: r => (!(pyWsChar a && pyWsChar b)) && noTwoWs (b :: r)

theorem noTwoWs_tail {a : Char} {r : List Char} (h : noTwoWs (a :: r) = true) :
    noTwoWs r = true := by
  match r with
  | [] => rfl
  | b :: t =>
    rw [noTwoWs, Bool.and_eq_true] at h
    exact h.2

theorem noTwoWs_cons_of_head {a : Char} {r : List Char}
    (hr : noTwoWs r = true)
    (hhead : ∀ d, r.head? = some d → (pyWsChar a && pyWsChar d) = false) :
    noTwoWs (a :: r) = true := by
  match r with
  | [] => rfl
  | b :: t =>
    rw [noTwoWs, Bool.and_eq_true]
    exact ⟨by rw [hhead b rfl]; rfl, hr⟩

theorem head?_dropWhile_ws {p : Char → Bool} {l : List Char} {d : Char}
    (h : (List.dropWhile p l).head? = some d) : p d = false := by
  induction l with
  | nil => simp [List.dropWhile] at h
  | cons c rest ih =>
    rw [List.dropWhile_cons] at h
    split at h
    · exact ih h
    · next hc =>
      simp only [List.head?_cons, Option.some.injEq] at h
      rw [← h]
      exact Bool.not_eq_true _ ▸ (by simpa using hc)

theorem collapseWsSpec_head (l : List Char) :
    (collapseWsSpec l).head? =
      l.head?.map (fun c => if pyWsChar c then ' ' else c) := by
  match l with
  | [] => rw [collapseWsSpec_nil]; rfl
  | c :: rest =>
    rw [collapseWsSpec_cons]
    split
    · next hw => simp [hw]
    · next hw => simp [hw]

theorem noTwoWs_collapseWsSpec (l : List Char) :
    noTwoWs (collapseWsSpec l) = true := by
  induction l using collapseWsSpec.induct with
  | case1 => rw [collapseWsSpec_nil]; rfl
  | case2 d rest hw ih =>
    rw [collapseWsSpec_cons, if_pos hw]
    apply noTwoWs_cons_of_head ih
    intro e he
    rw [collapseWsSpec_head] at he
    match hh : (List.dropWhile pyWsChar rest).head? with
    | none => rw [hh] at he; simp at he
    | some f =>
      rw [hh] at he
      have hf := head?_dropWhile_ws hh
      simp only [Option.map_some', Option.some.injEq] at he
      have hef : e = f := by rw [← he, if_neg (by simp [hf])]
      rw [hef, hf]
      simp
  | case3 d rest hw ih =>
    rw [collapseWsSpec_cons, if_neg hw]
    apply noTwoWs_cons_of_head ih
    intro e _
    simp only [Bool.and_eq_false_iff]
    left
    exact Bool.not_eq_true _ ▸ (by simpa using hw)

theorem noTwoWs_dropWhile {p : Char → Bool} {l : List Char}
    (h : noTwoWs l = true) : noTwoWs (List.dropWhile p l) = true := by
  induction l with
  | nil => exact h
  | cons c rest ih =>
    rw [List.dropWhile_cons]
    split
    · exact ih (noTwoWs_tail h)
    · exact h

theorem noTwoWs_append_left {a b : List Char}
    (h : noTwoWs (a ++ b) = true) : noTwoWs a = true := by
  induction a with
  | nil => rfl
  | cons x t ih =>
    match t with
    | [] => rfl
    | y :: t' =>
      rw [List.cons_append] at h
      rw [noTwoWs]
      rw [show (y :: t') ++ b = y :: (t' ++ b) from rfl] at h
      rw [noTwoWs, Bool.and_eq_true] at h
      rw [Bool.and_eq_true]
      exact ⟨h.1, ih (by rw [List.cons_append]; exact h.2)⟩

theorem noTwoWs_prefix {a l : List Char} (hp : a <+: l)
    (h : noTwoWs l = true) : noTwoWs a = true := by
  rcases hp with ⟨s, rfl⟩
  exact noTwoWs_append_left h

/-- Last-character-is-whitespace test (False on the empty list). -/
def lastWs : List Char → Bool
  | [] => false
  | [c] => pyWsChar c
  | _ :: b :: r => lastWs (b :: r)

theorem lastWs_dropTrailingWs (l : List Char) :
    lastWs (dropTrailingWs l) = false := by
  induction l with
  | nil => rfl
  | cons c rest ih =>
    rw [dropTrailingWs]
    split
    · rfl
    · next hguard =>
      match hr : dropTrailingWs rest with
      | [] =>
        rw [hr] at hguard
        simp only [List.isEmpty_nil, Bool.true_and] at hguard
        rw [lastWs]
        simpa using hguard
      | d :: t =>
        rw [hr] at ih
        rw [lastWs]
        exact ih

theorem dropTrailingWs_eq_self {l : List Char} (h : lastWs l = false) :
    dropTrailingWs l = l := by
  induction l with
  | nil => rfl
  | cons c rest ih =>
    match rest with
    | [] =>
      rw [lastWs] at h
      rw [dropTrailingWs]
      simp [dropTrailingWs, h]
    | d :: t =>
      rw [lastWs] at h
      rw [dropTrailingWs, ih h]
      simp

theorem collapseWsSpec_eq_self {l : List Char}
    (hsp : ∀ c ∈ l, pyWsChar c = true → c = ' ')
    (h2 : noTwoWs l = true) : collapseWsSpec l = l := by
  induction l with
  | nil => exact collapseWsSpec_nil
  | cons c rest ih =>
    rw [collapseWsSpec_cons]
    split
    · next hw =>
      have hc : c = ' ' := hsp c (by simp) hw
      match rest with
      | [] =>
        rw [List.dropWhile_nil, collapseWsSpec_nil, hc]
      | d :: t =>
        rw [noTwoWs, Bool.and_eq_true] at h2
        have hd : pyWsChar d = false := by
          have h1 := h2.1
          rw [hw] at h1
          simpa using h1
        rw [List.dropWhile_cons, if_neg (by simp [hd])]
        rw [ih (fun x hx hwx => hsp x (by simp [hx]) hwx) h2.2, hc]
    · next hw =>
      rw [ih (fun x hx hwx => hsp x (by simp [hx]) hwx) (noTwoWs_tail h2)]

theorem dropWhile_eq_self_of_head {p : Char → Bool} {l : List Char}
    (h : ∀ d, l.head? = some d → p d = false) : List.dropWhile p l = l := by
  match l with
  | [] => rfl
  | c :: rest =>
    rw [List.dropWhile_cons, if_neg (by simp [h c rfl])]

/-! ## The `goodRuns` invariant: no maximal word run is a variant word -/

/-- Decidable test: no maximal word-character run of `l` equals a variant
word; equivalently, the variant-word removal stage fixes `l`. -/
def goodRuns : List Char → Bool
  | [] => true
  | c :: rest =>
    if isWordChar c then
      (!(decide (List.takeWhile isWordChar (c :: rest) ∈ variantWords))) &&
        goodRuns (List.dropWhile isWordChar (c :: rest))
    else goodRuns rest
termination_by l => l.length
decreasing_by
  · simp only [List.dropWhile_cons, *, if_pos, List.length_cons]
    have := (List.dropWhile_suffix (l := rest) isWordChar).sublist.length_le
    omega
  · simp [List.length_cons]

theorem goodRuns_nil : goodRuns [] = true := by
  rw [goodRuns.eq_def]

theorem goodRuns_cons (c : Char) (rest : List Char) :
    goodRuns (c :: rest) =
      if isWordChar c then
        (!(decide (List.takeWhile isWordChar (c :: rest) ∈ variantWords))) &&
          goodRuns (List.dropWhile isWordChar (c :: rest))
      else goodRuns rest := by
  rw [goodRuns.eq_def]

theorem stripVWSpec_eq_self_of_goodRuns {l : List Char}
    (h : goodRuns l = true) : stripVWSpec l = l := by
  induction l using stripVWSpec.induct with
  | case1 => exact stripVWSpec_nil
  | case2 c rest hw ih =>
    rw [goodRuns_cons, if_pos hw, Bool.and_eq_true] at h
    rw [stripVWSpec_cons, if_pos hw, emitRun,
      if_neg (by simpa using h.1), ih h.2,
      List.takeWhile_append_dropWhile]
  | case3 c rest hw ih =>
    rw [goodRuns_cons, if_neg hw] at h
    rw [stripVWSpec_cons, if_neg hw, ih h]

theorem head_mem_of_head? {d : Char} {l : List Char} (h : l.head? = some d) :
    d ∈ l := by
  match l with
  | [] => cases h
  | c :: rest =>
    simp only [List.head?_cons, Option.some.injEq] at h
    simp [← h]

theorem stripVWSpec_head_nonword {m : List Char}
    (hm : ∀ d, m.head? = some d → isWordChar d = false) :
    ∀ d, (stripVWSpec m).head? = some d → isWordChar d = false := by
  intro d hd
  match m with
  | [] => rw [stripVWSpec_nil] at hd; cases hd
  | c :: rest =>
    have hc : isWordChar c = false := hm c rfl
    rw [stripVWSpec_cons, if_neg (by simp [hc])] at hd
    simp only [List.head?_cons, Option.some.injEq] at hd
    rw [← hd]
    exact hc

theorem goodRuns_append_run {run tail : List Char} (hne : run ≠ [])
    (hw : ∀ x ∈ run, isWordChar x = true)
    (htail : ∀ d, tail.head? = some d → isWordChar d = false) :
    goodRuns (run ++ tail) =
      ((!(decide (run ∈ variantWords))) && goodRuns tail) := by
  match run with
  | [] => exact absurd rfl hne
  | a :: t =>
    have htd : List.takeWhile isWordChar ((a :: t) ++ tail) = a :: t ∧
        List.dropWhile isWordChar ((a :: t) ++ tail) = tail := by
      match tail with
      | [] =>
        rw [List.append_nil]
        exact ⟨takeWhile_all hw, dropWhile_all hw⟩
      | d :: t' =>
        have hd : isWordChar d = false := htail d rfl
        exact ⟨takeWhile_append_block hw (by simp [hd]),
          dropWhile_append_block hw (by simp [hd])⟩
    rw [List.cons_append, goodRuns_cons, if_pos (hw a (by simp))]
    rw [← List.cons_append, htd.1, htd.2]

theorem goodRuns_stripVWSpec (l : List Char) :
    goodRuns (stripVWSpec l) = true := by
  induction l using stripVWSpec.induct with
  | case1 => rw [stripVWSpec_nil]; exact goodRuns_nil
  | case2 c rest hw ih =>
    rw [stripVWSpec_cons, if_pos hw, emitRun]
    split
    · rw [List.nil_append]
      exact ih
    · next hnv =>
      rw [goodRuns_append_run (by rw [List.takeWhile_cons, if_pos hw]; simp)
        (fun x hx => List.mem_takeWhile_imp hx)
        (stripVWSpec_head_nonword (fun d hd => head?_dropWhile_ws hd))]
      rw [ih]
      simp [hnv]
  | case3 c rest hw ih =>
    rw [stripVWSpec_cons, if_neg hw, goodRuns_cons, if_neg hw]
    exact ih

theorem takeWhile_word_collapseWsSpec (l : List Char) :
    List.takeWhile isWordChar (collapseWsSpec l) =
      List.takeWhile isWordChar l := by
  induction l using collapseWsSpec.induct with
  | case1 => rw [collapseWsSpec_nil]
  | case2 d rest hw ih =>
    rw [collapseWsSpec_cons, if_pos hw, List.takeWhile_cons,
      List.takeWhile_cons, if_neg (by decide), if_neg (by simp [ws_not_word hw])]
  | case3 d rest hw ih =>
    rw [collapseWsSpec_cons, if_neg hw, List.takeWhile_cons, List.takeWhile_cons]
    by_cases hword : isWordChar d
    · rw [if_pos hword, if_pos hword, ih]
    · rw [if_neg hword, if_neg hword]

theorem dropWhile_word_collapseWsSpec (l : List Char) :
    List.dropWhile isWordChar (collapseWsSpec l) =
      collapseWsSpec (List.dropWhile isWordChar l) := by
  induction l using collapseWsSpec.induct with
  | case1 => rw [collapseWsSpec_nil, List.dropWhile_nil, collapseWsSpec_nil]
  | case2 d rest hw ih =>
    rw [collapseWsSpec_cons, if_pos hw, List.dropWhile_cons,
      List.dropWhile_cons, if_neg (by decide), if_neg (by simp [ws_not_word hw])]
    rw [collapseWsSpec_cons, if_pos hw]
  | case3 d rest hw ih =>
    rw [collapseWsSpec_cons, if_neg hw, List.dropWhile_cons, List.dropWhile_cons]
    by_cases hword : isWordChar d
    · rw [if_pos hword, if_pos hword, ih]
    · rw [if_neg hword, if_neg hword, collapseWsSpec_cons, if_neg hw]

theorem goodRuns_dropWhile_ws {l : List Char} (h : goodRuns l = true) :
    goodRuns (List.dropWhile pyWsChar l) = true := by
  induction l with
  | nil => exact h
  | cons c rest ih =>
    rw [List.dropWhile_cons]
    split
    · next hw =>
      rw [goodRuns_cons, if_neg (by simp [ws_not_word hw])] at h
      exact ih h
    · exact h

theorem goodRuns_collapseWsSpec (l : List Char) (h : goodRuns l = true) :
    goodRuns (collapseWsSpec l) = true := by
  match l with
  | [] => rw [collapseWsSpec_nil]; exact h
  | c :: rest =>
    by_cases hw : pyWsChar c
    · rw [collapseWsSpec_cons, if_pos hw, goodRuns_cons, if_neg (by decide)]
      rw [goodRuns_cons, if_neg (by simp [ws_not_word hw])] at h
      exact goodRuns_collapseWsSpec (List.dropWhile pyWsChar rest)
        (goodRuns_dropWhile_ws h)
    · by_cases hword : isWordChar c
      · have hcc : c :: collapseWsSpec rest = collapseWsSpec (c :: rest) := by
          rw [collapseWsSpec_cons, if_neg hw]
        rw [collapseWsSpec_cons, if_neg hw, goodRuns_cons, if_pos hword, hcc,
          takeWhile_word_collapseWsSpec, dropWhile_word_collapseWsSpec]
        rw [goodRuns_cons, if_pos hword, Bool.and_eq_true] at h
        rw [Bool.and_eq_true]
        exact ⟨h.1, goodRuns_collapseWsSpec (List.dropWhile isWordChar (c :: rest)) h.2⟩
      · rw [collapseWsSpec_cons, if_neg hw, goodRuns_cons, if_neg hword]
        rw [goodRuns_cons, if_neg hword] at h
        exact goodRuns_collapseWsSpec rest h
termination_by l.length
decreasing_by
  · simp only [List.length_cons]
    have := (List.dropWhile_suffix (l := rest) pyWsChar).sublist.length_le
    omega
  · simp only [List.dropWhile_cons, if_pos hword, List.length_cons]
    have := (List.dropWhile_suffix (l := rest) isWordChar).sublist.length_le
    omega
  · simp [List.length_cons]

theorem dropTrailingWs_decomp (l : List Char) :
    ∃ s, l = dropTrailingWs l ++ s ∧ ∀ c ∈ s, pyWsChar c = true := by
  induction l with
  | nil => exact ⟨[], rfl, by simp⟩
  | cons c rest ih =>
    obtain ⟨s, hs, hws⟩ := ih
    rw [dropTrailingWs]
    split
    · next hguard =>
      rw [Bool.and_eq_true, List.isEmpty_iff] at hguard
      refine ⟨c :: rest, rfl, ?_⟩
      intro x hx
      rcases List.mem_cons.mp hx with h1 | h1
      · rw [h1]; exact hguard.2
      · rw [hguard.1, List.nil_append] at hs
        exact hws x (hs ▸ h1)
    · exact ⟨s, by rw [List.cons_append, ← hs], hws⟩

theorem goodRuns_all_nonword {s : List Char}
    (h : ∀ c ∈ s, isWordChar c = false) : goodRuns s = true := by
  induction s with
  | nil => exact goodRuns_nil
  | cons c t ih =>
    rw [goodRuns_cons, if_neg (by simp [h c (by simp)])]
    exact ih (fun x hx => h x (by simp [hx]))

theorem takeWhile_word_nil_of_nonword {s : List Char}
    (h : ∀ c ∈ s, isWordChar c = false) :
    List.takeWhile isWordChar s = [] := by
  match s with
  | [] => rfl
  | c :: t => rw [List.takeWhile_cons, if_neg (by simp [h c (by simp)])]

theorem goodRuns_append_ws_suffix (x s : List Char)
    (hs : ∀ c ∈ s, pyWsChar c = true) (h : goodRuns (x ++ s) = true) :
    goodRuns x = true := by
  match x with
  | [] => exact goodRuns_nil
  | c :: t =>
    have hsnw : ∀ d ∈ s, isWordChar d = false := fun d hd => ws_not_word (hs d hd)
    by_cases hword : isWordChar c
    · have htake : List.takeWhile isWordChar ((c :: t) ++ s) =
          List.takeWhile isWordChar (c :: t) := by
        rw [List.takeWhile_append]
        split
        · next hlen =>
          have heq : List.takeWhile isWordChar (c :: t) = c :: t :=
            (List.takeWhile_prefix _).eq_of_length hlen
          rw [takeWhile_word_nil_of_nonword hsnw, List.append_nil, heq]
        · rfl
      have hh := h
      rw [List.cons_append, goodRuns_cons, if_pos hword, ← List.cons_append,
        htake, Bool.and_eq_true] at hh
      have hdropfull := hh.2
      rw [List.dropWhile_append] at hdropfull
      rw [goodRuns_cons, if_pos hword, Bool.and_eq_true]
      refine ⟨hh.1, ?_⟩
      by_cases hemp : (List.dropWhile isWordChar (c :: t)).isEmpty
      · rw [List.isEmpty_iff] at hemp
        rw [hemp]
        exact goodRuns_nil
      · rw [if_neg hemp] at hdropfull
        exact goodRuns_append_ws_suffix (List.dropWhile isWordChar (c :: t)) s
          hs hdropfull
    · rw [List.cons_append, goodRuns_cons, if_neg hword] at h
      rw [goodRuns_cons, if_neg hword]
      exact goodRuns_append_ws_suffix t s hs h
termination_by x.length
decreasing_by
  · simp only [List.dropWhile_cons, if_pos hword, List.length_cons]
    have := (List.dropWhile_suffix (l := t) isWordChar).sublist.length_le
    omega
  · simp [List.length_cons]

theorem goodRuns_dropTrailingWs {l : List Char} (h : goodRuns l = true) :
    goodRuns (dropTrailingWs l) = true := by
  obtain ⟨s, hdecomp, hws⟩ := dropTrailingWs_decomp l
  exact goodRuns_append_ws_suffix (dropTrailingWs l) s hws (by rw [← hdecomp]; exact h)

/-! ## Idempotence of `normalize_title` -/

theorem map_eq_self_of_fix {f : Char → Char} {l : List Char}
    (h : ∀ c ∈ l, f c = c) : l.map f = l := by
  induction l with
  | nil => rfl
  | cons c t ih =>
    rw [List.map_cons, h c (by simp), ih (fun x hx => h x (by simp [hx]))]

theorem goodRuns_normalizeChars (l : List Char) :
    goodRuns (normalizeChars l) = true := by
  unfold normalizeChars
  apply goodRuns_dropTrailingWs
  apply goodRuns_dropWhile_ws
  rw [collapseWs_eq_spec]
  apply goodRuns_collapseWsSpec
  rw [stripVW_eq_spec]
  exact goodRuns_stripVWSpec _

theorem lower_fix_normalizeChars {c : Char} {l : List Char}
    (h : c ∈ normalizeChars l) : pyLowerChar c = c := by
  rcases mem_of_mem_normalizeChars h with h1 | h1
  · rcases List.mem_map.mp h1 with ⟨d, hd, hdc⟩
    rcases List.mem_map.mp hd with ⟨e, _, hde⟩
    rw [← hdc]
    unfold debracketChar
    split
    · exact pyLowerChar_space
    · rw [← hde]
      exact pyLowerChar_idem e
  · rw [h1]
    exact pyLowerChar_space

theorem nonbracket_normalizeChars {c : Char} {l : List Char}
    (h : c ∈ normalizeChars l) : isBracketChar c = false := by
  rcases mem_of_mem_normalizeChars h with h1 | h1
  · rcases List.mem_map.mp h1 with ⟨d, _, hdc⟩
    rw [← hdc]
    unfold debracketChar
    split
    · decide
    · next hb => simpa using hb
  · rw [h1]
    decide

theorem ws_space_normalizeChars {c : Char} {l : List Char}
    (h : c ∈ normalizeChars l) (hws : pyWsChar c = true) : c = ' ' := by
  unfold normalizeChars at h
  have h1 := mem_of_mem_dropTrailingWs h
  have h2 := (List.dropWhile_suffix pyWsChar).sublist.mem h1
  rw [collapseWs_eq_spec] at h2
  exact ws_space_collapseWsSpec h2 hws

theorem noTwoWs_normalizeChars (l : List Char) :
    noTwoWs (normalizeChars l) = true := by
  unfold normalizeChars
  apply noTwoWs_prefix (dropTrailingWs_prefix_self _)
  apply noTwoWs_dropWhile
  rw [collapseWs_eq_spec]
  exact noTwoWs_collapseWsSpec _

theorem head?_of_prefix_some {a l : List Char} {d : Char} (hp : a <+: l)
    (h : a.head? = some d) : l.head? = some d := by
  rcases hp with ⟨s, rfl⟩
  match a with
  | [] => cases h
  | c :: t =>
    simp only [List.head?_cons, Option.some.injEq] at h
    rw [List.cons_append]
    simpa using h

theorem head_not_ws_normalizeChars {l : List Char} {d : Char}
    (h : (normalizeChars l).head? = some d) : pyWsChar d = false := by
  unfold normalizeChars at h
  exact head?_dropWhile_ws (head?_of_prefix_some (dropTrailingWs_prefix_self _) h)

theorem normalizeChars_idem (l : List Char) :
    normalizeChars (normalizeChars l) = normalizeChars l := by
  have hy1 : List.map pyLowerChar (normalizeChars l) = normalizeChars l :=
    map_eq_self_of_fix (fun c hc => lower_fix_normalizeChars hc)
  have hy2 : List.map debracketChar (normalizeChars l) = normalizeChars l :=
    map_eq_self_of_fix (fun c hc => by
      unfold debracketChar
      rw [if_neg (by simp [nonbracket_normalizeChars hc])])
  have hy3 : stripVW (normalizeChars l) = normalizeChars l := by
    rw [stripVW_eq_spec]
    exact stripVWSpec_eq_self_of_goodRuns (goodRuns_normalizeChars l)
  have hy4 : collapseWs (normalizeChars l) = normalizeChars l := by
    rw [collapseWs_eq_spec]
    exact collapseWsSpec_eq_self
      (fun c hc hws => ws_space_normalizeChars hc hws)
      (noTwoWs_normalizeChars l)
  have hy5 : List.dropWhile pyWsChar (normalizeChars l) = normalizeChars l :=
    dropWhile_eq_self_of_head (fun d hd => head_not_ws_normalizeChars hd)
  have hy6 : dropTrailingWs (normalizeChars l) = normalizeChars l := by
    apply dropTrailingWs_eq_self
    unfold normalizeChars
    exact lastWs_dropTrailingWs _
  conv_lhs => rw [normalizeChars, hy1, hy2, hy3, hy4, hy5, hy6]

/-- C8: Title normalization is idempotent — for every input string `x`,
`normalize(normalize(x)) = normalize(x)`. -/
theorem normalize_title_idempotent (x : String) :
    normalize_title (normalize_title x) = normalize_title x := by
  unfold normalize_title
  exact congrArg String.mk (normalizeChars_idem x.data)

/-! ## Python string comparison, sorting, splitting, joining, int parsing -/

/-- Python `<=` on strings as character lists: lexicographic on code points. -/
def pyStrLeList : List Char → List Char → Bool
  | [], _ => true
  | _ :: _, [] => false
  | a :: as, b :: bs =>
    decide (a.toNat < b.toNat) || (decide (a.toNat = b.toNat) && pyStrLeList as bs)

/-- Python `<=` on strings (lexicographic comparison by code point). -/
def pyStrLe (s t : String) : Bool := pyStrLeList s.data t.data

/-- Python `<=` on strings as a decidable relation for sorting. -/
def pyStrLeRel (s t : String) : Prop := pyStrLe s t = true

instance : DecidableRel pyStrLeRel := fun s t => by
  unfold pyStrLeRel
  infer_instance

theorem pyStrLeList_total (xs : List Char) :
    ∀ ys, pyStrLeList xs ys = true ∨ pyStrLeList ys xs = true := by
  induction xs with
  | nil => intro ys; left; rfl
  | cons a as ih =>
    intro ys
    match ys with
    | [] => right; rfl
    | b :: bs =>
      by_cases hlt : a.toNat < b.toNat
      · left; rw [pyStrLeList]; simp [hlt]
      · by_cases heq : a.toNat = b.toNat
        · rcases ih bs with h | h
          · left; rw [pyStrLeList]; simp [heq, h]
          · right; rw [pyStrLeList]; simp [heq.symm, h]
        · right; rw [pyStrLeList]
          have : b.toNat < a.toNat := by omega
          simp [this]

theorem char_eq_of_toNat_eq {a b : Char} (h : a.toNat = b.toNat) : a = b :=
  Char.eq_of_val_eq (UInt32.toNat.inj h)

theorem pyStrLeList_antisymm (xs : List Char) :
    ∀ ys, pyStrLeList xs ys = true → pyStrLeList ys xs = true → xs = ys := by
  induction xs with
  | nil =>
    intro ys h1 h2
    match ys with
    | [] => rfl
    | b :: bs => cases h2
  | cons a as ih =>
    intro ys h1 h2
    match ys with
    | [] => cases h1
    | b :: bs =>
      rw [pyStrLeList, Bool.or_eq_true, Bool.and_eq_true] at h1 h2
      rcases h1 with h1 | ⟨he1, h1⟩
      · rcases h2 with h2 | ⟨he2, h2⟩
        · simp only [decide_eq_true_eq] at h1 h2; omega
        · simp only [decide_eq_true_eq] at h1 he2; omega
      · rcases h2 with h2 | ⟨he2, h2⟩
        · simp only [decide_eq_true_eq] at h2 he1; omega
        · simp only [decide_eq_true_eq] at he1
          rw [char_eq_of_toNat_eq he1, ih bs h1 h2]

theorem pyStrLeList_trans (xs : List Char) :
    ∀ ys zs, pyStrLeList xs ys = true → pyStrLeList ys zs = true →
      pyStrLeList xs zs = true := by
  induction xs with
  | nil => intro ys zs _ _; rfl
  | cons a as ih =>
    intro ys zs h1 h2
    match ys, zs with
    | [], _ => cases h1
    | _ :: _, [] => cases h2
    | b :: bs, c :: cs =>
      rw [pyStrLeList, Bool.or_eq_true, Bool.and_eq_true] at h1 h2 ⊢
      rcases h1 with h1 | ⟨he1, h1⟩ <;> rcases h2 with h2 | ⟨he2, h2⟩ <;>
        simp only [decide_eq_true_eq] at *
      · left; omega
      · left; omega
      · left; omega
      · right; exact ⟨by omega, ih bs cs h1 h2⟩

instance : IsTotal String pyStrLeRel :=
  ⟨fun s t => pyStrLeList_total s.data t.data⟩

instance : IsTrans String pyStrLeRel :=
  ⟨fun s t u => pyStrLeList_trans s.data t.data u.data⟩

instance : IsAntisymm String pyStrLeRel :=
  ⟨fun s t h1 h2 => by
    have := pyStrLeList_antisymm s.data t.data h1 h2
    cases s; cases t
    exact congrArg String.mk this⟩

/-- Python `sorted` on a list of strings (ascending lexicographic order). -/
def pySorted (l : List String) : List String :=
  List.insertionSort pyStrLeRel l

theorem pySorted_perm_invariant {l l' : List String} (h : l.Perm l') :
    pySorted l = pySorted l' := by
  apply List.eq_of_perm_of_sorted (r := pyStrLeRel)
  · exact (List.perm_insertionSort pyStrLeRel l).trans
      (h.trans (List.perm_insertionSort pyStrLeRel l').symm)
  · exact List.sorted_insertionSort pyStrLeRel l
  · exact List.sorted_insertionSort pyStrLeRel l'

/-- Python `",".join(l)`. -/
def joinComma (l : List String) : String := String.intercalate (",") l

/-- Python `s.split(",")` at the character level. -/
def splitCommaChars : List Char → List (List Char)
  | [] => [[]]
  | c :: rest =>
    let r := splitCommaChars rest
    if c = ',' then [] :: r
    else
      match r with
      | [] => [[c]]
      | h :: t => (c :: h) :: t

/-- Python `s.split(",")`: splits at every comma, no collapsing
(`"".split(",")` yields `[""]`). -/
def pySplitComma (s : String) : List String :=
  (splitCommaChars s.data).map String.mk

example : pySplitComma ("a,b") = ["a", "b"] := by decide
example : pySplitComma ("") = [""] := by decide
example : pySplitComma ("a,,b") = ["a", "", "b"] := by decide

/-- Python `int(...)` over a decimal string: optional surrounding
whitespace, optional sign, at least one digit (underscore separators and
non-ASCII digits are outside the model). `Option.none` models the raised
`ValueError`. -/
def parseIntChars (cs : List Char) : Option Int :=
  let core := dropTrailingWs (List.dropWhile pyWsChar cs)
  let signed : Bool × List Char :=
    match core with
    | '-' :: rest => (true, rest)
    | '+' :: rest => (false, rest)
    | rest => (false, rest)
  let digits := signed.2
  if digits = [] then none
  else if digits.all (fun c => 48 ≤ c.toNat && c.toNat ≤ 57) then
    let v : Int := digits.foldl (fun acc c => acc * 10 + (c.toNat - 48 : Int)) 0
    some (if signed.1 then -v else v)
  else none

example : parseIntChars (" 12 ".data) = some 12 := by decide
example : parseIntChars ("-7".data) = some (-7) := by decide
example : parseIntChars ("abc".data) = none := by decide
example : parseIntChars ("".data) = none := by decide
example : parseIntChars ("12.5".data) = none := by decide

/-! ## Keys (`src/spotify_client.py` and `src/ingest.py`) -/

/-- Python `x or ""` for an optional string (`None` and `""` are falsy). -/
def pyOrEmpty (o : Option String) : String := o.getD ""

/-- Python `x or 0` for an optional integer (`None` and `0` are falsy). -/
def pyOrZero (o : Option Int) : Int := o.getD 0

/-- Model of `canonical_key` from `src/spotify_client.py`: normalized title,
first four characters of the release date, and the album-group
classification, joined by `::`. -/
def canonical_key (title : Option String) (release_date : Option String)
    (group : Option String) : String :=
  let tt := normalize_title (pyOrEmpty title)
  let year := (pyOrEmpty release_date).take 4
  let gg := pyOrEmpty group
  tt ++ "::" ++ year ++ "::" ++ gg

/-- Model of `canonical_track_key` from `src/ingest.py`: normalized title,
whole-second duration bucket (`(duration_ms or 0) // 1000`), and the
lexicographically sorted contributor ids joined by commas, all joined by
`::`. -/
def canonical_track_key (title : Option String) (duration_ms : Option Int)
    (artist_ids : Option (List String)) : String :=
  let t := normalize_title (pyOrEmpty title)
  let d_sec : Int := (pyOrZero duration_ms).fdiv 1000
  let ids_sorted := joinComma (pySorted (artist_ids.getD []))
  t ++ "::" ++ toString d_sec ++ "::" ++ ids_sorted

example : canonical_track_key (some ("Feel It")) (some 200450) (some ["a1"]) =
    "feel it::200::a1" := by decide

/-! ## Release grouping (`pick_canonical_df` and the variant map of
`ingest_artist`, `src/ingest.py`) -/

/-- One row of the releases dataframe built by `fetch_artist_releases_df`:
`id` and `title` always present, the remaining fields as fetched
(`None`/`NaN` modelled by `Option.none`). -/
structure RelRow where
  id : String
  title : String
  group : Option String
  release_date : Option String
  total_tracks : Option Int
deriving DecidableEq, Repr

/-- The dataframe `canonical_key` column: grouping key of a release row. -/
def rowKey (r : RelRow) : String :=
  canonical_key (some r.title) r.release_date r.group

/-- The `group_rank` column of `pick_canonical_df`: `"album"` ranks 0,
anything else — including a missing classification (`fillna("zzz")`) —
ranks 1. -/
def group_rank (r : RelRow) : Nat :=
  if r.group = some "album" then 0 else 1

/-- The `tracks_rank` column of `pick_canonical_df`: total track count with
missing values treated as 0 (`fillna(0)`). -/
def tracks_rank (r : RelRow) : Int :=
  pyOrZero r.total_tracks

/-- The sort order of `pick_canonical_df`
(`by=["group_rank", "tracks_rank", "id"], ascending=[True, False, True]`):
`a` sorts no later than `b`. -/
def relBefore (a b : RelRow) : Bool :=
  decide (group_rank a < group_rank b) ||
    (decide (group_rank a = group_rank b) &&
      (decide (tracks_rank b < tracks_rank a) ||
        (decide (tracks_rank a = tracks_rank b) && pyStrLe a.id b.id)))

/-- Binary minimum under `relBefore`, keeping the earlier argument on ties. -/
def pickBetter (a b : RelRow) : RelRow :=
  if relBefore a b then a else b

/-- Model of `pick_canonical_df`: the first row of the group after sorting
by (group rank asc, track count desc, id asc). -/
def pick_canonical : List RelRow → Option RelRow
  | [] => none
  | r :: rest => some (rest.foldl pickBetter r)

/-- The members of `df` sharing grouping key `k` (one `groupby` group). -/
def groupOf (df : List RelRow) (k : String) : List RelRow :=
  df.filter (fun r => rowKey r = k)

/-- The `variant_of` dictionary built in step 3 of `ingest_artist`, read at
a release id: `some c` when the release is a non-canonical member of its
group with canonical id `c`, `none` otherwise. -/
def variant_of_df (df : List RelRow) (rid : String) : Option String :=
  (df.find? (fun r => r.id = rid)).bind (fun r =>
    (pick_canonical (groupOf df (rowKey r))).bind (fun c =>
      if c.id = rid then none else some c.id))

/-- The dedup flags of a stored Release row (`is_variant`, `variant_of`). -/
structure RelFlags where
  is_variant : Bool
  variant_of : Option String
deriving DecidableEq, Repr

/-- Effect of one `ingest_artist` run on the stored dedup flags (steps 4
and 6): every release id occurring in the fetched dataframe exists
afterwards and carries freshly recomputed flags; rows not in the dataframe
are untouched. -/
def applyVariantFlags (db : String → Option RelFlags) (df : List RelRow) :
    String → Option RelFlags :=
  fun rid =>
    match df.find? (fun r => r.id = rid) with
    | some _ => some ⟨(variant_of_df df rid).isSome, variant_of_df df rid⟩
    | none => db rid

/-! ## Tracks, user state and propagation (`streamlit_app.py`) -/

/-- A stored Track row (`src/models.py`), restricted to the fields the
embedded operations read. -/
structure TrackRow where
  id : String
  release_id : String
  title : String
  disc_number : Int
  track_number : Int
  duration_ms : Option Int
  explicit : Bool
  isrc : Option String
  artist_ids_csv : Option String
  artist_names_csv : Option String
  primary_artist_id : Option String
  canonical_key : Option String
deriving DecidableEq, Repr

/-- A stored UserTrackState row (minus the key). -/
structure UTSVal where
  listened : Bool
  rating : Option Int
deriving DecidableEq, Repr

/-- A stored UserReleaseState row (minus the key; notes omitted). -/
structure URSVal where
  listened : Bool
  rating : Option Int
deriving DecidableEq, Repr

/-- Python truthiness of a nullable string column (`None` and `""` falsy). -/
def truthyStr : Option String → Bool
  | none => false
  | some s => !(s = "")

/-- The contributor-id list read in `propagate_track_state`:
`(m.artist_ids_csv or "").split(",") if m.artist_ids_csv else []`. -/
def csvIds (o : Option String) : List String :=
  if truthyStr o then pySplitComma (o.getD "") else []

/-- The relevance filter of `propagate_track_state`: the requesting
artist's id appears in the track's contributor-id list or equals its
primary contributor id (`m.primary_artist_id or ""`). -/
def eligible (artist_id : String) (m : TrackRow) : Bool :=
  (csvIds m.artist_ids_csv).contains artist_id ||
    (m.primary_artist_id.getD "" = artist_id)

/-- The duplicate-group lookup of `propagate_track_state`: all stored
tracks sharing the target's canonical key when that key is truthy, else
all tracks sharing its isrc when that is truthy, else nothing. -/
def dupMatches (tracks : List TrackRow) (t : TrackRow) : List TrackRow :=
  if truthyStr t.canonical_key then
    tracks.filter (fun m => m.canonical_key = t.canonical_key)
  else if truthyStr t.isrc then
    tracks.filter (fun m => m.isrc = t.isrc)
  else []

/-- The per-row upsert of `propagate_track_state`: start from the existing
UserTrackState row (or a fresh one with defaults `listened = False`,
`rating = NULL`), then set `listened`/`rating` only when supplied. -/
def updateUTS (old : Option UTSVal) (listened : Option Bool)
    (rating : Option Int) : UTSVal :=
  let base := old.getD ⟨false, none⟩
  { listened := listened.getD base.listened
    rating := match rating with
              | some r => some r
              | none => base.rating }

/-- The body of the `for m in matches` loop of `propagate_track_state`:
skip ineligible tracks, upsert the UserTrackState row of eligible ones. -/
def upsertStep (artist_id : String) (listened : Option Bool)
    (rating : Option Int) (st : String → Option UTSVal) (m : TrackRow) :
    String → Option UTSVal :=
  if eligible artist_id m then
    fun k => if k = m.id then some (updateUTS (st m.id) listened rating)
             else st k
  else st

/-- Model of `propagate_track_state` from `streamlit_app.py`, acting on the
UserTrackState store (a map from track id to row). Track rows themselves
are read-only here. -/
def propagate_track_state (tracks : List TrackRow)
    (σ : String → Option UTSVal) (track_id artist_id : String)
    (listened : Option Bool) (rating : Option Int) :
    String → Option UTSVal :=
  match tracks.find? (fun tr => tr.id = track_id) with
  | none => σ
  | some t =>
    (dupMatches tracks t).foldl (upsertStep artist_id listened rating) σ

/-- Ratings of the tracks of one release present in the UserTrackState
store — the SQL join of `album_display_rating` enumerated from the Track
side. -/
def trackRatings (σ : String → Option UTSVal) (tracks : List TrackRow)
    (album_id : String) : List Int :=
  (tracks.filter (fun t => t.release_id = album_id)).filterMap
    (fun t => (σ t.id).bind (fun r => r.rating))

/-- Model of `album_display_rating` from `streamlit_app.py`: the explicit
release-level override when present and non-null
(`if rs and rs.rating is not None`), else the average of the non-null
track ratings under the release, else no rating.  The mean is modelled
exactly in `ℚ`. -/
def album_display_rating (urs : String → Option URSVal)
    (σ : String → Option UTSVal) (tracks : List TrackRow)
    (album_id : String) : Option ℚ :=
  match (urs album_id).bind (fun rs => rs.rating) with
  | some r => some ((r : ℚ))
  | none =>
    if (trackRatings σ tracks album_id).isEmpty then none
    else some (((trackRatings σ tracks album_id).map (fun r => (r : ℚ))).sum /
      ((trackRatings σ tracks album_id).length : ℚ))

/-! ## Ingestion constructors (`src/ingest.py`, steps 4 and 5) -/

/-- A raw scalar as it arrives from the external source: absent, an
integer, or a string. -/
inductive PyVal where
  | none
  | int (n : Int)
  | str (s : String)
deriving DecidableEq, Repr

/-- Model of `_safe_int` from `src/ingest.py`: `int(x)` with any exception
(and `None`) mapped to `None`. -/
def _safe_int : PyVal → Option Int
  | .none => Option.none
  | .int n => some n
  | .str s => parseIntChars s.data

/-- A raw release entry of the fetched dataframe as consumed by step 4 of
`ingest_artist` (`id` and `title` are always present in the dataframe). -/
structure RawRelease where
  id : String
  title : String
  type : Option String
  group : Option String
  release_date : Option String
  precision : Option String
  total_tracks : PyVal
  cover : Option String
deriving DecidableEq, Repr

/-- The descriptive fields of a stored Release row written by step 4. -/
structure ReleaseRow where
  id : String
  title : String
  type : Option String
  group : Option String
  release_date : Option String
  date_precision : Option String
  total_tracks : Option Int
  cover : Option String
deriving DecidableEq, Repr

/-- The Release row stored by step 4 of `ingest_artist` for one fetched
release (identical field assignments on insert and on overwrite). -/
def mkReleaseRow (row : RawRelease) : ReleaseRow :=
  { id := row.id
    title := row.title
    type := row.type
    group := row.group
    release_date := row.release_date
    date_precision := row.precision
    total_tracks := _safe_int row.total_tracks
    cover := row.cover }

/-- A raw track entry from `hydrate_album` as consumed by step 5 of
`ingest_artist`.  `duration_ms` is kept integral-or-absent because
`canonical_track_key` applies `//` to it before `_safe_int` is ever
reached, so a non-integral value would raise inside hydration, not
default. -/
structure RawTrack where
  id : Option String
  title : Option String
  disc_number : PyVal
  track_number : PyVal
  duration_ms : Option Int
  explicit : Bool
  isrc : Option String
  artist_ids : Option (List String)
  artist_names : Option (List String)
deriving DecidableEq, Repr

/-- Python `x or 1` applied to the result of `_safe_int` (both `None` and
`0` fall back to 1). -/
def pyOrOne (v : Option Int) : Int :=
  match v with
  | Option.none => 1
  | some 0 => 1
  | some n => n

/-- The Track row appended by step 5 of `ingest_artist` for one raw track
entry, or `none` when the entry has no id (`if not t.get("id"): continue`,
which also skips an empty-string id). -/
def mkTrackRow (rid : String) (t : RawTrack) : Option TrackRow :=
  t.id.bind (fun tid =>
    if tid = "" then Option.none
    else
      let ids := t.artist_ids.getD []
      let names := t.artist_names.getD []
      some
        { id := tid
          release_id := rid
          title := pyOrEmpty t.title
          disc_number := pyOrOne (_safe_int t.disc_number)
          track_number := pyOrOne (_safe_int t.track_number)
          duration_ms := t.duration_ms
          explicit := t.explicit
          isrc := t.isrc
          artist_ids_csv := some (joinComma ids)
          artist_names_csv := some (joinComma names)
          primary_artist_id := ids.head?
          canonical_key := some (canonical_track_key t.title t.duration_ms t.artist_ids) })

/-! ## Order-theoretic facts about the canonical-release sort -/

theorem pyStrLeList_refl (xs : List Char) : pyStrLeList xs xs = true := by
  induction xs with
  | nil => rfl
  | cons a as ih => rw [pyStrLeList]; simp [ih]

theorem relBefore_refl (a : RelRow) : relBefore a a = true := by
  unfold relBefore pyStrLe
  simp [pyStrLeList_refl]

theorem relBefore_total (a b : RelRow) :
    relBefore a b = true ∨ relBefore b a = true := by
  unfold relBefore
  rcases Nat.lt_trichotomy (group_rank a) (group_rank b) with h | h | h
  · left; simp [h]
  · rcases Int.lt_trichotomy (tracks_rank a) (tracks_rank b) with h2 | h2 | h2
    · right; simp [h, h2]
    · rcases pyStrLeList_total a.id.data b.id.data with h3 | h3
      · left; unfold pyStrLe; simp [h, h2, h3]
      · right; unfold pyStrLe; simp [h, h2, h3]
    · left; simp [h, h2]
  · right; simp [h]

theorem relBefore_trans {a b c : RelRow} (h1 : relBefore a b = true)
    (h2 : relBefore b c = true) : relBefore a c = true := by
  unfold relBefore pyStrLe at *
  simp only [Bool.or_eq_true, Bool.and_eq_true, decide_eq_true_eq] at h1 h2 ⊢
  rcases h1 with h1 | ⟨he1, h1⟩
  · rcases h2 with h2 | ⟨he2, h2⟩
    · left; omega
    · left; omega
  · rcases h2 with h2 | ⟨he2, h2⟩
    · left; omega
    · right
      refine ⟨by omega, ?_⟩
      rcases h1 with h1 | ⟨ht1, h1⟩
      · rcases h2 with h2 | ⟨ht2, h2⟩
        · left; omega
        · left; omega
      · rcases h2 with h2 | ⟨ht2, h2⟩
        · left; omega
        · right; exact ⟨by omega, pyStrLeList_trans _ _ _ h1 h2⟩

theorem pickBetter_le_left (a b : RelRow) :
    relBefore (pickBetter a b) a = true := by
  unfold pickBetter
  split
  · exact relBefore_refl a
  · next h =>
    rcases relBefore_total a b with h1 | h1
    · exact absurd h1 h
    · exact h1

theorem pickBetter_le_right (a b : RelRow) :
    relBefore (pickBetter a b) b = true := by
  unfold pickBetter
  split
  · next h => exact h
  · exact relBefore_refl b

theorem foldl_pickBetter_mem (r : RelRow) (rest : List RelRow) :
    rest.foldl pickBetter r ∈ r :: rest := by
  induction rest generalizing r with
  | nil => simp
  | cons x t ih =>
    rw [List.foldl_cons]
    have hm := ih (pickBetter r x)
    have hpb : pickBetter r x = r ∨ pickBetter r x = x := by
      unfold pickBetter; split <;> simp
    rcases List.mem_cons.mp hm with h | h
    · rw [h]
      rcases hpb with h2 | h2 <;> simp [h2]
    · exact List.mem_cons_of_mem _ (List.mem_cons_of_mem _ h)

theorem foldl_pickBetter_le (r : RelRow) (rest : List RelRow) :
    ∀ x ∈ r :: rest, relBefore (rest.foldl pickBetter r) x = true := by
  induction rest generalizing r with
  | nil =>
    intro x hx
    rcases List.mem_cons.mp hx with h | h
    · subst h; exact relBefore_refl x
    · cases h
  | cons y t ih =>
    intro x hx
    rw [List.foldl_cons]
    have hres := ih (pickBetter r y)
    rcases List.mem_cons.mp hx with h | h
    · rw [h]
      exact relBefore_trans (hres (pickBetter r y) (by simp)) (pickBetter_le_left r y)
    · rcases List.mem_cons.mp h with h1 | h1
      · rw [h1]
        exact relBefore_trans (hres (pickBetter r y) (by simp)) (pickBetter_le_right r y)
      · exact hres x (by simp [h1])

theorem pick_canonical_mem {G : List RelRow} {c : RelRow}
    (h : pick_canonical G = some c) : c ∈ G := by
  match G with
  | [] => cases h
  | g :: t =>
    rw [pick_canonical, Option.some.injEq] at h
    rw [← h]
    exact foldl_pickBetter_mem g t

theorem pick_canonical_le {G : List RelRow} {c : RelRow}
    (h : pick_canonical G = some c) : ∀ x ∈ G, relBefore c x = true := by
  match G with
  | [] => cases h
  | g :: t =>
    rw [pick_canonical, Option.some.injEq] at h
    rw [← h]
    exact foldl_pickBetter_le g t

/-! ## Lookup by primary key in a store with unique ids -/

theorem find?_id_of_mem {df : List RelRow} {r : RelRow}
    (hnd : (df.map RelRow.id).Nodup) (hr : r ∈ df) :
    df.find? (fun x => x.id = r.id) = some r := by
  induction df with
  | nil => cases hr
  | cons h t ih =>
    rw [List.map_cons, List.nodup_cons] at hnd
    by_cases hh : h.id = r.id
    · rcases List.mem_cons.mp hr with h1 | h1
      · rw [← h1]
        exact List.find?_cons_of_pos _ (by simp)
      · exact absurd (hh ▸ List.mem_map_of_mem RelRow.id h1) hnd.1
    · rw [List.find?_cons_of_neg _ (by simp [hh])]
      rcases List.mem_cons.mp hr with h1 | h1
      · exact absurd (congrArg RelRow.id h1.symm) hh
      · exact ih hnd.2 h1

theorem id_inj_of_nodup {df : List RelRow} (hnd : (df.map RelRow.id).Nodup)
    {x y : RelRow} (hx : x ∈ df) (hy : y ∈ df) (h : x.id = y.id) : x = y := by
  have h1 := find?_id_of_mem hnd hx
  have h2 := find?_id_of_mem hnd hy
  rw [h] at h1
  rw [h1] at h2
  exact Option.some.inj h2

theorem variant_of_df_eq {df : List RelRow} (hnd : (df.map RelRow.id).Nodup)
    {x c : RelRow} (hx : x ∈ df)
    (hpick : pick_canonical (groupOf df (rowKey x)) = some c) (hc : c ∈ df) :
    variant_of_df df x.id = if x = c then none else some c.id := by
  unfold variant_of_df
  rw [find?_id_of_mem hnd hx, Option.some_bind, hpick, Option.some_bind]
  by_cases hxc : x = c
  · rw [if_pos (by rw [hxc]), if_pos hxc]
  · rw [if_neg (fun hid => hxc (id_inj_of_nodup hnd hx hc hid.symm)), if_neg hxc]

/-- C1: For every fetched release list (with the source's unique release
ids), the variant map of `ingest_artist` partitions the rows by grouping
key (normalized title `::` date prefix `::` album group); each group has a
canonical member — the first row after sorting by group rank ascending,
track count descending, id ascending — which receives no `variant_of`,
every other member receives `variant_of` equal to the canonical id, and a
singleton group yields no variant. -/
theorem release_grouping_canonical (df : List RelRow) (r : RelRow)
    (hnd : (df.map RelRow.id).Nodup) (hr : r ∈ df) :
    ∃ c, pick_canonical (groupOf df (rowKey r)) = some c ∧
      c ∈ groupOf df (rowKey r) ∧
      (∀ x, x ∈ groupOf df (rowKey r) ↔ x ∈ df ∧ rowKey x = rowKey r) ∧
      (∀ x ∈ groupOf df (rowKey r), relBefore c x = true) ∧
      (∀ x ∈ groupOf df (rowKey r),
        variant_of_df df x.id = if x = c then none else some c.id) ∧
      (groupOf df (rowKey r) = [r] → variant_of_df df r.id = none) := by
  have hmemG : r ∈ groupOf df (rowKey r) := by
    simp [groupOf, List.mem_filter, hr]
  obtain ⟨c, hc⟩ : ∃ c, pick_canonical (groupOf df (rowKey r)) = some c := by
    cases hG : groupOf df (rowKey r) with
    | nil => rw [hG] at hmemG; cases hmemG
    | cons g t => exact ⟨_, rfl⟩
  have hcG := pick_canonical_mem hc
  have hcdf : c ∈ df := List.mem_of_mem_filter hcG
  have hvar : ∀ x ∈ groupOf df (rowKey r),
      variant_of_df df x.id = if x = c then none else some c.id := by
    intro x hx
    have hxdf : x ∈ df := List.mem_of_mem_filter hx
    have hxkey : rowKey x = rowKey r := by
      have := List.of_mem_filter hx
      simpa using this
    have hpick : pick_canonical (groupOf df (rowKey x)) = some c := by
      rw [hxkey]; exact hc
    exact variant_of_df_eq hnd hxdf hpick hcdf
  refine ⟨c, hc, hcG, ?_, pick_canonical_le hc, hvar, ?_⟩
  · intro x
    simp [groupOf, List.mem_filter]
  · intro hsng
    have hcr : c = r := by
      have := hcG; rw [hsng] at this; simpa using this
    have := hvar r hmemG
    rw [if_pos hcr.symm] at this
    exact this

/-- C2 (amended): After one sync, among the releases written by that sync
(the rows of its fetched dataframe), every variant points to a release
whose recomputed flags are canonical (`is_variant = false`,
`variant_of = null`).  Chains can still arise across syncs of different
artists, so the amended invariant is scoped to the rows the last sync
touched. -/
theorem variant_flags_consistent (db : String → Option RelFlags)
    (df : List RelRow) (hnd : (df.map RelRow.id).Nodup) (rid : String)
    (fl : RelFlags) (hfl : applyVariantFlags db df rid = some fl)
    (hin : (df.find? (fun r => r.id = rid)).isSome)
    (hv : fl.is_variant = true) :
    ∃ cid, fl.variant_of = some cid ∧
      applyVariantFlags db df cid = some ⟨false, none⟩ := by
  obtain ⟨r, hfind⟩ := Option.isSome_iff_exists.mp hin
  have hrid : r.id = rid := by simpa using List.find?_some hfind
  have hrdf : r ∈ df := List.mem_of_find?_eq_some hfind
  unfold applyVariantFlags at hfl
  rw [hfind] at hfl
  have hflv : fl = ⟨(variant_of_df df rid).isSome, variant_of_df df rid⟩ :=
    (Option.some.inj hfl).symm
  obtain ⟨c, hc⟩ : ∃ c, pick_canonical (groupOf df (rowKey r)) = some c := by
    have hmemG : r ∈ groupOf df (rowKey r) := by
      simp [groupOf, List.mem_filter, hrdf]
    cases hG : groupOf df (rowKey r) with
    | nil => rw [hG] at hmemG; cases hmemG
    | cons g t => exact ⟨_, rfl⟩
  have hcG := pick_canonical_mem hc
  have hcdf : c ∈ df := List.mem_of_mem_filter hcG
  have hvr : variant_of_df df rid = if r = c then none else some c.id := by
    rw [← hrid]
    exact variant_of_df_eq hnd hrdf hc hcdf
  have hrc : r ≠ c := by
    intro hrc
    rw [hflv] at hv
    simp only [hvr, if_pos hrc] at hv
    cases hv
  refine ⟨c.id, ?_, ?_⟩
  · rw [hflv]
    simp [hvr, if_neg hrc]
  · unfold applyVariantFlags
    rw [find?_id_of_mem hnd hcdf]
    have hkey : rowKey c = rowKey r := by
      have := List.of_mem_filter hcG
      simpa using this
    have hvc : variant_of_df df c.id = none := by
      have := variant_of_df_eq hnd hcdf (by rw [hkey]; exact hc) hcdf
      rw [if_pos rfl] at this
      exact this
    rw [hvc]
    rfl

/-- The deluxe edition of the spec's end-to-end example (16 tracks). -/
def relDeluxe : RelRow :=
  { id := "r1", title := "Midnight (Deluxe)", group := some "album",
    release_date := some "2024-01-05", total_tracks := some 16 }

/-- The standard edition of the spec's end-to-end example (12 tracks). -/
def relPlain : RelRow :=
  { id := "r2", title := "Midnight", group := some "album",
    release_date := some "2024-03-01", total_tracks := some 12 }

/-- An unrelated single fetched alongside the two album editions. -/
def relSingle : RelRow :=
  { id := "r3", title := "Solo", group := some "single",
    release_date := some "2024-06-01", total_tracks := some 1 }

/-- A fetched release dataframe with one two-member group and a singleton. -/
def dfMidnight : List RelRow := [relDeluxe, relPlain, relSingle]

example : rowKey relDeluxe = "midnight::2024::album" := by decide
example : rowKey relPlain = "midnight::2024::album" := by decide
example : pick_canonical (groupOf dfMidnight (rowKey relPlain)) = some relDeluxe := by
  decide
example : variant_of_df dfMidnight "r2" = some "r1" := by decide
example : variant_of_df dfMidnight "r1" = none := by decide
example : variant_of_df dfMidnight "r3" = none := by decide

/-- Witness for C1 on the spec's own example: "Midnight (Deluxe)" (16
tracks) and "Midnight" (12 tracks) group together, the deluxe row wins the
track-count tiebreak, and the singleton "Solo" has no variant. -/
theorem release_grouping_canonical_witness :
    ((dfMidnight.map RelRow.id).Nodup ∧ relPlain ∈ dfMidnight) ∧
    (∃ c, pick_canonical (groupOf dfMidnight (rowKey relPlain)) = some c ∧
      c ∈ groupOf dfMidnight (rowKey relPlain) ∧
      (∀ x, x ∈ groupOf dfMidnight (rowKey relPlain) ↔
        x ∈ dfMidnight ∧ rowKey x = rowKey relPlain) ∧
      (∀ x ∈ groupOf dfMidnight (rowKey relPlain), relBefore c x = true) ∧
      (∀ x ∈ groupOf dfMidnight (rowKey relPlain),
        variant_of_df dfMidnight x.id = if x = c then none else some c.id) ∧
      (groupOf dfMidnight (rowKey relPlain) = [relPlain] →
        variant_of_df dfMidnight relPlain.id = none)) :=
  ⟨⟨by decide, by decide⟩,
    release_grouping_canonical dfMidnight relPlain (by decide) (by decide)⟩

/-- A two-row dataframe for the C2 witness: `w1` (10 tracks) beats `w2`
(8 tracks), so `w2` is stored as a variant of `w1`. -/
def dfPairW : List RelRow :=
  [ { id := "w1", title := "n", group := some "album",
      release_date := some "2021", total_tracks := some 10 },
    { id := "w2", title := "n", group := some "album",
      release_date := some "2021", total_tracks := some 8 } ]

/-- Witness for the amended C2: after the sync writing `dfPairW`, the
variant `w2` points at `w1`, whose flags are canonical. -/
theorem variant_flags_consistent_witness :
    ((dfPairW.map RelRow.id).Nodup ∧
      applyVariantFlags (fun _ => Option.none) dfPairW ("w2") =
        some ⟨true, some ("w1")⟩ ∧
      (dfPairW.find? (fun r => r.id = "w2")).isSome = true) ∧
    (∃ cid, (⟨true, some ("w1")⟩ : RelFlags).variant_of = some cid ∧
      applyVariantFlags (fun _ => Option.none) dfPairW cid =
        some ⟨false, Option.none⟩) :=
  ⟨⟨by decide, by decide, by decide⟩,
    variant_flags_consistent (fun _ => Option.none) dfPairW (by decide) ("w2")
      ⟨true, some ("w1")⟩ (by decide) (by decide) rfl⟩

/-- Fetched dataframe of a first artist: two same-key album rows; the
id tiebreak makes `x1` canonical and `x2` its variant. -/
def dfArtistA : List RelRow :=
  [ { id := "x1", title := "m", group := some "album",
      release_date := some "2020", total_tracks := some 12 },
    { id := "x2", title := "m", group := some "album",
      release_date := some "2020", total_tracks := some 12 } ]

/-- Fetched dataframe of a second artist sharing release `x1` (now seen as
`appears_on`): the larger `x0` wins its group, demoting `x1` to variant. -/
def dfArtistB : List RelRow :=
  [ { id := "x0", title := "m", group := some "appears_on",
      release_date := some "2020", total_tracks := some 20 },
    { id := "x1", title := "m", group := some "appears_on",
      release_date := some "2020", total_tracks := some 12 } ]

/-- Storage flags after syncing artist A and then artist B. -/
def chainDb : String → Option RelFlags :=
  applyVariantFlags (applyVariantFlags (fun _ => Option.none) dfArtistA) dfArtistB

/-- C2 is refuted on the code: two well-formed syncs (unique ids each)
reach a state where `x2` is a variant whose `variant_of` points to `x1`,
itself now a variant — a variant-of-variant chain. -/
theorem variant_chain_reachable :
    (dfArtistA.map RelRow.id).Nodup ∧ (dfArtistB.map RelRow.id).Nodup ∧
      chainDb ("x2") = some ⟨true, some ("x1")⟩ ∧
      chainDb ("x1") = some ⟨true, some ("x0")⟩ := by
  refine ⟨by decide, by decide, ?_, ?_⟩ <;> decide

theorem mkTrackRow_fields {t : RawTrack} {rid : String} {tr : TrackRow}
    (htr : mkTrackRow rid t = some tr) :
    tr.title = pyOrEmpty t.title ∧
      tr.disc_number = pyOrOne (_safe_int t.disc_number) ∧
      tr.track_number = pyOrOne (_safe_int t.track_number) ∧
      tr.canonical_key =
        some (canonical_track_key t.title t.duration_ms t.artist_ids) := by
  unfold mkTrackRow at htr
  match hid : t.id with
  | Option.none => rw [hid, Option.none_bind] at htr; cases htr
  | some tid =>
    rw [hid, Option.some_bind] at htr
    by_cases he : tid = ""
    · rw [if_pos he] at htr; cases htr
    · rw [if_neg he] at htr
      rw [← Option.some.inj htr]
      exact ⟨rfl, rfl, rfl, rfl⟩

/-! ## Claims about the track canonical key (C6, C9) -/

/-- C6 is refuted as stated: 999 ms and 1001 ms differ by 2 ms (< 1000 ms)
yet land in different whole-second buckets, so the keys differ. -/
theorem canonical_track_key_ms_sensitive :
    (1001 - 999 : Int) < 1000 ∧
      canonical_track_key (some ("t")) (some 999) (some ["a"]) ≠
        canonical_track_key (some ("t")) (some 1001) (some ["a"]) := by
  exact ⟨by decide, by decide⟩

/-- C6 (amended): the track key is insensitive to millisecond differences
that stay within one whole-second bucket
(`⌊d1/1000⌋ = ⌊d2/1000⌋`; differences under 1000 ms that cross a second
boundary may change the key), and insensitive to contributor-list order. -/
theorem canonical_track_key_bucket_perm (title : Option String)
    (d1 d2 : Option Int) (c c' : List String)
    (hd : (pyOrZero d1).fdiv 1000 = (pyOrZero d2).fdiv 1000)
    (hp : c.Perm c') :
    canonical_track_key title d1 (some c) =
      canonical_track_key title d2 (some c') := by
  unfold canonical_track_key
  rw [show (some c : Option (List String)).getD [] = c from rfl,
    show (some c' : Option (List String)).getD [] = c' from rfl,
    pySorted_perm_invariant hp, hd]

/-- Witness for the amended C6 at concrete inputs: 200450 ms and 200000 ms
share bucket 200, and swapping the two contributors leaves the key
unchanged. -/
theorem canonical_track_key_bucket_perm_witness :
    ((pyOrZero (some 200450)).fdiv 1000 = (pyOrZero (some 200000)).fdiv 1000 ∧
      List.Perm ["a1", "b2"] ["b2", "a1"]) ∧
    canonical_track_key (some ("x")) (some 200450) (some ["a1", "b2"]) =
      canonical_track_key (some ("x")) (some 200000) (some ["b2", "a1"]) :=
  ⟨⟨by decide, by decide⟩,
    canonical_track_key_bucket_perm (some ("x")) (some 200450) (some 200000)
      ["a1", "b2"] ["b2", "a1"] (by decide) (by decide)⟩

theorem canonical_track_key_ne_empty (title : Option String)
    (duration_ms : Option Int) (artist_ids : Option (List String)) :
    canonical_track_key title duration_ms artist_ids ≠ "" := by
  intro h
  have hd := congrArg String.data h
  unfold canonical_track_key at hd
  simp only [String.data_append] at hd
  simp at hd

/-- C9: the track canonical key is never empty and always contains the two
`::` separators; consequently every Track row written by sync
(`mkTrackRow`) stores a truthy `canonical_key`, and the duplicate-group
lookup on such a row takes the canonical-key branch — the isrc fallback is
unreachable for rows written by sync. -/
theorem canonical_track_key_always_truthy :
    (∀ (title : Option String) (duration_ms : Option Int)
        (artist_ids : Option (List String)),
      (∃ s1 s2 s3, canonical_track_key title duration_ms artist_ids =
        s1 ++ "::" ++ s2 ++ "::" ++ s3) ∧
      canonical_track_key title duration_ms artist_ids ≠ "") ∧
    (∀ (rid : String) (raw : RawTrack) (tr : TrackRow),
      mkTrackRow rid raw = some tr →
      tr.canonical_key =
        some (canonical_track_key raw.title raw.duration_ms raw.artist_ids) ∧
      truthyStr tr.canonical_key = true ∧
      ∀ tracks : List TrackRow, dupMatches tracks tr =
        tracks.filter (fun m => m.canonical_key = tr.canonical_key)) := by
  refine ⟨fun title duration_ms artist_ids =>
    ⟨⟨_, _, _, rfl⟩, canonical_track_key_ne_empty title duration_ms artist_ids⟩, ?_⟩
  intro rid raw tr htr
  have hkey := (mkTrackRow_fields htr).2.2.2
  have htruthy : truthyStr tr.canonical_key = true := by
    rw [hkey]
    unfold truthyStr
    simp [canonical_track_key_ne_empty raw.title raw.duration_ms raw.artist_ids]
  refine ⟨hkey, htruthy, ?_⟩
  intro tracks
  unfold dupMatches
  rw [if_pos htruthy]

/-- A raw hydrated entry with only an id and an isrc, as consumed by sync,
used to witness C9. -/
def rawMinimal : RawTrack :=
  { id := some "t1", title := Option.none, disc_number := PyVal.none,
    track_number := PyVal.none, duration_ms := Option.none, explicit := false,
    isrc := some "QZZZZ0000001", artist_ids := Option.none,
    artist_names := Option.none }

/-- The Track row sync writes for `rawMinimal` under release `r1`. -/
def syncedTrack : TrackRow :=
  { id := "t1"
    release_id := "r1"
    title := ""
    disc_number := 1
    track_number := 1
    duration_ms := Option.none
    explicit := false
    isrc := some "QZZZZ0000001"
    artist_ids_csv := some ""
    artist_names_csv := some ""
    primary_artist_id := Option.none
    canonical_key := some (canonical_track_key Option.none Option.none Option.none) }

/-- Witness for C9: the row sync writes for a raw entry with every source
field missing still carries the truthy key `"::0::"`, and its duplicate
lookup uses the canonical-key branch, not the isrc it carries. -/
theorem canonical_track_key_always_truthy_witness :
    mkTrackRow ("r1") rawMinimal = some syncedTrack ∧
    syncedTrack.canonical_key =
      some (canonical_track_key rawMinimal.title rawMinimal.duration_ms
        rawMinimal.artist_ids) ∧
    truthyStr syncedTrack.canonical_key = true ∧
    dupMatches [syncedTrack] syncedTrack =
      [syncedTrack].filter (fun m => m.canonical_key = syncedTrack.canonical_key) :=
  ⟨by decide,
    (canonical_track_key_always_truthy.2 ("r1") rawMinimal syncedTrack (by decide)).1,
    (canonical_track_key_always_truthy.2 ("r1") rawMinimal syncedTrack (by decide)).2.1,
    (canonical_track_key_always_truthy.2 ("r1") rawMinimal syncedTrack
      (by decide)).2.2 [syncedTrack]⟩

/-! ## Claims about state propagation (C3, C10) -/

/-- Two stored tracks sharing an isrc but differing in heuristic key. -/
def isrcTwin1 : TrackRow :=
  { id := "t1", release_id := "r1", title := "s", disc_number := 1,
    track_number := 1, duration_ms := some 200999, explicit := false,
    isrc := some "QM0000000001", artist_ids_csv := some "a1",
    artist_names_csv := some "n1", primary_artist_id := some "a1",
    canonical_key := some "s::200::a1" }

/-- Same recording on another release: identical isrc, but re-encoding
pushed the duration across a second boundary, so the heuristic key
differs. -/
def isrcTwin2 : TrackRow :=
  { id := "t2", release_id := "r2", title := "s", disc_number := 1,
    track_number := 1, duration_ms := some 201001, explicit := false,
    isrc := some "QM0000000001", artist_ids_csv := some "a1",
    artist_names_csv := some "n1", primary_artist_id := some "a1",
    canonical_key := some "s::201::a1" }

/-- C3 is refuted on the code (and the code contradicts the data model's
own comment that the heuristic key is the "fallback when no isrc"): the
lookup checks `canonical_key` first, so two tracks with the same non-null
isrc but different heuristic keys are not placed in one duplicate group. -/
theorem isrc_duplicates_not_grouped :
    isrcTwin1.isrc = isrcTwin2.isrc ∧ isrcTwin1.isrc ≠ none ∧
      isrcTwin1.canonical_key ≠ isrcTwin2.canonical_key ∧
      dupMatches [isrcTwin1, isrcTwin2] isrcTwin1 = [isrcTwin1] := by
  refine ⟨by decide, by decide, by decide, by decide⟩

/-- C10: calling the propagation with a track id that has no Track row is
a no-op on the UserTrackState store and returns normally. -/
theorem propagate_missing_track_noop (tracks : List TrackRow)
    (σ : String → Option UTSVal) (track_id artist_id : String)
    (listened : Option Bool) (rating : Option Int)
    (h : tracks.find? (fun tr => tr.id = track_id) = none) :
    propagate_track_state tracks σ track_id artist_id listened rating = σ := by
  unfold propagate_track_state
  rw [h]

/-- Witness for C10 on the empty track store. -/
theorem propagate_missing_track_noop_witness :
    (([] : List TrackRow).find? (fun tr => tr.id = "t9") = none) ∧
    propagate_track_state [] (fun _ => Option.none) "t9" "a1" (some true)
      (some 5) = (fun _ => Option.none) :=
  ⟨rfl, propagate_missing_track_noop [] (fun _ => Option.none) "t9" "a1"
    (some true) (some 5) rfl⟩

/-! ## Claim about malformed-field defaulting (C7) -/

/-- A fetched release with its total track count missing. -/
def rawNoCount : RawRelease :=
  { id := "r0", title := "t0", type := Option.none, group := Option.none,
    release_date := Option.none, precision := Option.none,
    total_tracks := PyVal.none, cover := Option.none }

/-- C7 is refuted in its total-track-count part: a release with a missing
count is stored with `total_tracks = NULL` (via `_safe_int`), not 0 — the
0 default exists only inside the canonical ranking (`fillna(0)`). -/
theorem missing_total_tracks_stored_null :
    rawNoCount.total_tracks = PyVal.none ∧
      (mkReleaseRow rawNoCount).total_tracks = Option.none ∧
      (mkReleaseRow rawNoCount).total_tracks ≠ some 0 := by
  refine ⟨rfl, rfl, by decide⟩

/-- C7 (amended): sync recovers from malformed fields by defaulting — a
missing or unparseable total track count is stored as NULL (ranked as 0
during canonical selection, which `tracks_rank` shows), a missing disc or
track number becomes 1, a missing title becomes the empty string, and a
track entry without id (absent or empty) is skipped entirely. -/
theorem ingest_malformed_defaults (row : RawRelease) (t : RawTrack)
    (rid : String) :
    ((mkReleaseRow row).total_tracks = _safe_int row.total_tracks) ∧
    (row.total_tracks = PyVal.none →
      (mkReleaseRow row).total_tracks = Option.none) ∧
    (∀ rr : RelRow, rr.total_tracks = Option.none → tracks_rank rr = 0) ∧
    (t.disc_number = PyVal.none →
      ∀ tr, mkTrackRow rid t = some tr → tr.disc_number = 1) ∧
    (t.track_number = PyVal.none →
      ∀ tr, mkTrackRow rid t = some tr → tr.track_number = 1) ∧
    (t.title = Option.none → ∀ tr, mkTrackRow rid t = some tr → tr.title = "") ∧
    ((t.id = Option.none ∨ t.id = some "") → mkTrackRow rid t = Option.none) := by
  refine ⟨rfl, ?_, ?_, ?_, ?_, ?_, ?_⟩
  · intro h
    unfold mkReleaseRow _safe_int
    rw [h]
  · intro rr h
    unfold tracks_rank pyOrZero
    rw [h]
    rfl
  · intro h tr htr
    rw [(mkTrackRow_fields htr).2.1, h]
    rfl
  · intro h tr htr
    rw [(mkTrackRow_fields htr).2.2.1, h]
    rfl
  · intro h tr htr
    rw [(mkTrackRow_fields htr).1, h]
    rfl
  · intro h
    unfold mkTrackRow
    rcases h with h | h
    · rw [h, Option.none_bind]
    · rw [h, Option.some_bind, if_pos rfl]

/-- Witness for the amended C7: a release with a missing count and a track
with every malformed field at once. -/
def rawBadTrack : RawTrack :=
  { id := some "tx", title := Option.none, disc_number := PyVal.none,
    track_number := PyVal.none, duration_ms := Option.none, explicit := false,
    isrc := Option.none, artist_ids := Option.none, artist_names := Option.none }

/-- Witness for the amended C7 at concrete malformed inputs. -/
theorem ingest_malformed_defaults_witness :
    (rawNoCount.total_tracks = PyVal.none ∧ rawBadTrack.disc_number = PyVal.none ∧
      rawBadTrack.title = Option.none) ∧
    ((mkReleaseRow rawNoCount).total_tracks = _safe_int rawNoCount.total_tracks) ∧
    (mkReleaseRow rawNoCount).total_tracks = Option.none ∧
    (∀ tr, mkTrackRow "r0" rawBadTrack = some tr →
      tr.disc_number = 1 ∧ tr.track_number = 1 ∧ tr.title = "") := by
  refine ⟨⟨rfl, rfl, rfl⟩, (ingest_malformed_defaults rawNoCount rawBadTrack "r0").1,
    (ingest_malformed_defaults rawNoCount rawBadTrack "r0").2.1 rfl, ?_⟩
  intro tr htr
  exact ⟨(ingest_malformed_defaults rawNoCount rawBadTrack "r0").2.2.2.1 rfl tr htr,
    (ingest_malformed_defaults rawNoCount rawBadTrack "r0").2.2.2.2.1 rfl tr htr,
    (ingest_malformed_defaults rawNoCount rawBadTrack "r0").2.2.2.2.2.1 rfl tr htr⟩

/-! ## Claim C4: group-wide, field-selective, idempotent state upsert -/

theorem upsertStep_apply_ne (artist_id : String) (listened : Option Bool)
    (rating : Option Int) (σ : String → Option UTSVal) (m : TrackRow)
    (k : String) (hk : eligible artist_id m = true → k ≠ m.id) :
    upsertStep artist_id listened rating σ m k = σ k := by
  unfold upsertStep
  split
  · next he => dsimp only; rw [if_neg (hk he)]
  · rfl

theorem upsertStep_apply_self (artist_id : String) (listened : Option Bool)
    (rating : Option Int) (σ : String → Option UTSVal) (m : TrackRow)
    (he : eligible artist_id m = true) :
    upsertStep artist_id listened rating σ m m.id =
      some (updateUTS (σ m.id) listened rating) := by
  unfold upsertStep
  rw [if_pos he, if_pos rfl]

theorem updateUTS_idem (old : Option UTSVal) (l : Option Bool)
    (r : Option Int) :
    updateUTS (some (updateUTS old l r)) l r = updateUTS old l r := by
  unfold updateUTS
  cases l <;> cases r <;> rfl

theorem dupMatches_sublist (tracks : List TrackRow) (t : TrackRow) :
    (dupMatches tracks t).Sublist tracks := by
  unfold dupMatches
  split
  · exact List.filter_sublist tracks
  · split
    · exact List.filter_sublist tracks
    · exact List.nil_sublist tracks

theorem foldl_upsert_spec (artist_id : String) (listened : Option Bool)
    (rating : Option Int) (ms : List TrackRow) :
    ∀ σ : String → Option UTSVal, (ms.map TrackRow.id).Nodup →
      (∀ k, k ∉ (ms.filter (eligible artist_id)).map TrackRow.id →
          ms.foldl (upsertStep artist_id listened rating) σ k = σ k) ∧
      (∀ m ∈ ms, eligible artist_id m = true →
          ms.foldl (upsertStep artist_id listened rating) σ m.id =
            some (updateUTS (σ m.id) listened rating)) := by
  induction ms with
  | nil =>
    intro σ _
    exact ⟨fun k _ => rfl, fun m hm => absurd hm (List.not_mem_nil m)⟩
  | cons m ms ih =>
    intro σ hnd
    rw [List.map_cons, List.nodup_cons] at hnd
    have ihσ := ih (upsertStep artist_id listened rating σ m) hnd.2
    constructor
    · intro k hk
      have hk1 : k ∉ (ms.filter (eligible artist_id)).map TrackRow.id := by
        intro hcon
        apply hk
        rw [List.filter_cons]
        split
        · rw [List.map_cons]
          exact List.mem_cons_of_mem _ hcon
        · exact hcon
      have hk2 : eligible artist_id m = true → k ≠ m.id := by
        intro he hkm
        apply hk
        rw [List.filter_cons, if_pos (by simp [he]), List.map_cons, hkm]
        simp
      rw [List.foldl_cons, ihσ.1 k hk1, upsertStep_apply_ne _ _ _ _ _ _ hk2]
    · intro x hx he
      rcases List.mem_cons.mp hx with h1 | h1
      · have hnotin : x.id ∉ (ms.filter (eligible artist_id)).map TrackRow.id := by
          intro hcon
          apply hnd.1
          rw [h1] at hcon
          rcases List.mem_map.mp hcon with ⟨y, hy, hyid⟩
          exact hyid ▸ List.mem_map_of_mem _ (List.mem_of_mem_filter hy)
        rw [List.foldl_cons, ihσ.1 x.id hnotin, h1,
          upsertStep_apply_self _ _ _ _ _ (h1 ▸ he)]
      · have hxm : x.id ≠ m.id := by
          intro hcon
          exact hnd.1 (hcon ▸ List.mem_map_of_mem _ h1)
        rw [List.foldl_cons, ihσ.2 x h1 he,
          upsertStep_apply_ne _ _ _ _ _ _ (fun _ => hxm)]

/-- C4: operating on a store whose Track ids are unique, a propagation call
for an existing track updates the UserTrackState of exactly the eligible
members of its duplicate group — every one of them gets the upserted row
(fields set only when supplied, the other field kept from the existing row
or defaulted on a fresh one), every other key is untouched — and repeating
the identical call does not change the store further. -/
theorem propagate_group_update (tracks : List TrackRow)
    (σ : String → Option UTSVal) (track_id artist_id : String)
    (listened : Option Bool) (rating : Option Int) (t : TrackRow)
    (hnd : (tracks.map TrackRow.id).Nodup)
    (hfind : tracks.find? (fun tr => tr.id = track_id) = some t) :
    (∀ k, k ∉ ((dupMatches tracks t).filter (eligible artist_id)).map TrackRow.id →
        propagate_track_state tracks σ track_id artist_id listened rating k = σ k) ∧
    (∀ m ∈ dupMatches tracks t, eligible artist_id m = true →
        propagate_track_state tracks σ track_id artist_id listened rating m.id =
          some (updateUTS (σ m.id) listened rating)) ∧
    propagate_track_state tracks
        (propagate_track_state tracks σ track_id artist_id listened rating)
        track_id artist_id listened rating =
      propagate_track_state tracks σ track_id artist_id listened rating := by
  have hms : ((dupMatches tracks t).map TrackRow.id).Nodup :=
    List.Nodup.sublist ((dupMatches_sublist tracks t).map TrackRow.id) hnd
  unfold propagate_track_state
  rw [hfind]
  dsimp only
  obtain ⟨h1, h2⟩ := foldl_upsert_spec artist_id listened rating
    (dupMatches tracks t) σ hms
  refine ⟨h1, h2, ?_⟩
  obtain ⟨g1, g2⟩ := foldl_upsert_spec artist_id listened rating
    (dupMatches tracks t)
    ((dupMatches tracks t).foldl (upsertStep artist_id listened rating) σ) hms
  funext k
  by_cases hk : k ∈ ((dupMatches tracks t).filter (eligible artist_id)).map TrackRow.id
  · rcases List.mem_map.mp hk with ⟨m, hmf, hmid⟩
    have hm := List.mem_of_mem_filter hmf
    have he : eligible artist_id m = true := by
      have := List.of_mem_filter hmf
      simpa using this
    rw [← hmid, g2 m hm he, h2 m hm he, updateUTS_idem]
  · exact g1 k hk

/-- Two stored tracks forming one duplicate group (same canonical key) for
artist `a1`, plus an unrelated third track, witnessing C4. -/
def dupTrackA : TrackRow :=
  { id := "t1", release_id := "r1", title := "s", disc_number := 1,
    track_number := 1, duration_ms := some 200000, explicit := false,
    isrc := some "I1", artist_ids_csv := some "a1", artist_names_csv := some "n1",
    primary_artist_id := some "a1", canonical_key := some "s::200::a1" }

/-- Second member of the duplicate group (another release, same key). -/
def dupTrackB : TrackRow :=
  { id := "t2", release_id := "r2", title := "s", disc_number := 1,
    track_number := 1, duration_ms := some 200400, explicit := false,
    isrc := Option.none, artist_ids_csv := some "a1,a2",
    artist_names_csv := some "n1,n2", primary_artist_id := some "a1",
    canonical_key := some "s::200::a1" }

/-- A track outside the group (different canonical key). -/
def dupTrackC : TrackRow :=
  { id := "t3", release_id := "r3", title := "u", disc_number := 1,
    track_number := 1, duration_ms := some 100000, explicit := false,
    isrc := Option.none, artist_ids_csv := some "a1", artist_names_csv := some "n1",
    primary_artist_id := some "a1", canonical_key := some "u::100::a1" }

/-- Witness for C4 on a concrete three-track store. -/
theorem propagate_group_update_witness :
    (([dupTrackA, dupTrackB, dupTrackC].map TrackRow.id).Nodup ∧
      [dupTrackA, dupTrackB, dupTrackC].find? (fun tr => tr.id = "t1") =
        some dupTrackA) ∧
    ((∀ k, k ∉ ((dupMatches [dupTrackA, dupTrackB, dupTrackC] dupTrackA).filter
          (eligible "a1")).map TrackRow.id →
        propagate_track_state [dupTrackA, dupTrackB, dupTrackC]
          (fun _ => Option.none) "t1" "a1" (some true) Option.none k =
          (fun _ => Option.none) k) ∧
      (∀ m ∈ dupMatches [dupTrackA, dupTrackB, dupTrackC] dupTrackA,
        eligible "a1" m = true →
        propagate_track_state [dupTrackA, dupTrackB, dupTrackC]
          (fun _ => Option.none) "t1" "a1" (some true) Option.none m.id =
          some (updateUTS ((fun _ => (Option.none : Option UTSVal)) m.id)
            (some true) Option.none)) ∧
      propagate_track_state [dupTrackA, dupTrackB, dupTrackC]
          (propagate_track_state [dupTrackA, dupTrackB, dupTrackC]
            (fun _ => Option.none) "t1" "a1" (some true) Option.none)
          "t1" "a1" (some true) Option.none =
        propagate_track_state [dupTrackA, dupTrackB, dupTrackC]
          (fun _ => Option.none) "t1" "a1" (some true) Option.none) :=
  ⟨⟨by decide, by decide⟩,
    propagate_group_update [dupTrackA, dupTrackB, dupTrackC]
      (fun _ => Option.none) "t1" "a1" (some true) Option.none dupTrackA
      (by decide) (by decide)⟩

/-! ## Claim C5: display rating is override, else mean, else none -/

/-- C5: `album_display_rating` returns the per-release override whenever
the release's state row exists with a non-null rating; otherwise the exact
arithmetic mean of the non-null track ratings under the release when at
least one exists; otherwise an explicit no-rating `none` — never a zero
default.  The embedded function is pure: it only reads the two state
stores. -/
theorem album_display_rating_cases (urs : String → Option URSVal)
    (σ : String → Option UTSVal) (tracks : List TrackRow) (album_id : String) :
    (∀ rs r, urs album_id = some rs → rs.rating = some r →
        album_display_rating urs σ tracks album_id = some ((r : ℚ))) ∧
    ((urs album_id = none ∨ ∃ rs, urs album_id = some rs ∧ rs.rating = none) →
      trackRatings σ tracks album_id ≠ [] →
      album_display_rating urs σ tracks album_id =
        some (((trackRatings σ tracks album_id).map (fun r => (r : ℚ))).sum /
          ((trackRatings σ tracks album_id).length : ℚ))) ∧
    ((urs album_id = none ∨ ∃ rs, urs album_id = some rs ∧ rs.rating = none) →
      trackRatings σ tracks album_id = [] →
      album_display_rating urs σ tracks album_id = none) := by
  refine ⟨?_, ?_, ?_⟩
  · intro rs r hu hr
    unfold album_display_rating
    rw [hu, Option.some_bind, hr]
  · intro ho hne
    unfold album_display_rating
    have hif : ¬(trackRatings σ tracks album_id).isEmpty = true := by
      simpa [List.isEmpty_iff] using hne
    rcases ho with h | ⟨rs, hu, hr⟩
    · rw [h, Option.none_bind]
      dsimp only
      rw [if_neg hif]
    · rw [hu, Option.some_bind, hr]
      dsimp only
      rw [if_neg hif]
  · intro ho hemp
    unfold album_display_rating
    have hif : (trackRatings σ tracks album_id).isEmpty = true := by
      simp [List.isEmpty_iff, hemp]
    rcases ho with h | ⟨rs, hu, hr⟩
    · rw [h, Option.none_bind]
      dsimp only
      rw [if_pos hif]
    · rw [hu, Option.some_bind, hr]
      dsimp only
      rw [if_pos hif]

/-- A track of release `rX`, rated 6 in the witness store. -/
def ratedT1 : TrackRow :=
  { id := "u1", release_id := "rX", title := "p", disc_number := 1,
    track_number := 1, duration_ms := some 100000, explicit := false,
    isrc := Option.none, artist_ids_csv := some "a9", artist_names_csv := some "n9",
    primary_artist_id := some "a9", canonical_key := some "p::100::a9" }

/-- A second track of release `rX`, rated 8 in the witness store. -/
def ratedT2 : TrackRow :=
  { id := "u2", release_id := "rX", title := "q", disc_number := 1,
    track_number := 2, duration_ms := some 110000, explicit := false,
    isrc := Option.none, artist_ids_csv := some "a9", artist_names_csv := some "n9",
    primary_artist_id := some "a9", canonical_key := some "q::110::a9" }

/-- Concrete UserTrackState store rating `u1` at 6 and `u2` at 8. -/
def ratingStore : String → Option UTSVal := fun k =>
  if k = "u1" then some ⟨true, some 6⟩
  else if k = "u2" then some ⟨true, some 8⟩
  else Option.none

/-- Witness for C5: with no override and tracks rated 6 and 8 under the
release, the displayed rating is exactly 7. -/
theorem album_display_rating_cases_witness :
    (((fun _ => (Option.none : Option URSVal)) "rX" = none ∨
        ∃ rs, (fun _ => (Option.none : Option URSVal)) "rX" = some rs ∧
          rs.rating = none) ∧
      trackRatings ratingStore [ratedT1, ratedT2] "rX" ≠ []) ∧
    album_display_rating (fun _ => Option.none) ratingStore
      [ratedT1, ratedT2] "rX" = some 7 := by
  have hlist : trackRatings ratingStore [ratedT1, ratedT2] "rX" = [6, 8] := by
    decide
  have hcases := (album_display_rating_cases (fun _ => Option.none) ratingStore
    [ratedT1, ratedT2] "rX").2.1 (Or.inl rfl) (by rw [hlist]; decide)
  refine ⟨⟨Or.inl rfl, by rw [hlist]; decide⟩, ?_⟩
  rw [hcases, hlist]
  norm_num

end MusicList
